import Mathlib

/-!
Verification development for the ae-chunker-go repository (asymmetric
extremum content-defined chunking).

The repository contains three revisions of the chunking engine:
  * a buffer-mode variant (`Chunker.Split` / `nextCutPoint`), operating on a
    whole in-memory byte slice with width-wide byte-sum samples,
  * a streaming variant (`Chunker.NextBytes` in `ae.go`), pulling bytes from
    an `io.Reader` in width-sized reads,
  * an earlier segment-buffer variant (`Chunker.NextChunk`), byte-granular,
    reading up to `maxSize` bytes per call and carrying an overflow buffer.

Bytes are modelled as `Nat` (Go `byte` values fit in `0..255`; byte sums use
Go `int`, which cannot overflow for any realistic width, so `Nat` sums are
exact).  An `io.Reader` is modelled as a list of packets (`List (List Nat)`):
a call `Read(buf)` takes at most `len(buf)` bytes from the head packet and
returns fewer when the packet is shorter (partial availability), with
end-of-input once all packets are consumed; `bytes.Reader` corresponds to a
single packet.  Go loops are modelled with an explicit fuel argument; the
fuel passed by the wrappers provably suffices (each iteration advances by at
least one byte), and fuel-stability lemmas below make this exact.

`windowSize = int(math.Round(float64(avgSize) / (math.E - 1)))` is embedded
exactly over the rationals: `math.E - 1` as a float64 is exactly
`3869226701182825 / 2^51`, and rounding half away from zero of
`a * 2^51 / 3869226701182825` is `(a * 2^52 + 3869226701182825) / (2 * 3869226701182825)`
in integer division.  (The float64 quotient itself is correctly rounded to 53
bits before `math.Round`; for every concrete value used in this development
the 53-bit rounding and the exact quotient round to the same integer.)

`width = int(math.Round(float64(windowSize / 256)))` divides the two Go
`int`s first, so `math.Round` is applied to an already integral float64 and
is the identity: the embedding is truncating division.
-/

inductive Extremum
  | MAX
  | MIN
deriving DecidableEq

/-- `windowSize` as derived from the desired average size, see the header
comment: exact rounding of `avgSize / (math.E - 1)` in float64 constants. -/
def windowSizeOf (avgSize : Nat) : Nat :=
  (avgSize * 4503599627370496 + 3869226701182825) / 7738453402365650

/-- `getWidth`: `int(math.Round(float64(windowSize / 256)))`, floored to 1.
The inner division is Go integer division; `math.Round` of an integral
float64 is the identity. -/
def widthOf (windowSize : Nat) : Nat :=
  if windowSize / 256 = 0 then 1 else windowSize / 256

/-- The buffer-mode chunker (`Chunker` of the `Split` revision): a byte
slice plus the three caller-facing parameters. -/
structure BufChunker where
  Data : List Nat
  AverageSize : Nat
  mode : Extremum
  MaxSize : Nat
deriving DecidableEq

def BufChunker.getWindowSize (c : BufChunker) : Nat := windowSizeOf c.AverageSize

def BufChunker.getWidth (c : BufChunker) : Nat := widthOf c.getWindowSize

/-- `MinSize`: the theoretical minimum size a chunk can have. -/
def BufChunker.MinSize (c : BufChunker) : Nat := c.getWindowSize + c.getWidth

/-- `sumBytes(data, pos)`: the sum of the width-wide sample at `pos`,
clipped at the end of the slice. -/
def sumBytesAt (c : BufChunker) (data : List Nat) (pos : Nat) : Nat :=
  ((data.drop pos).take c.getWidth).sum

/-- `isExtreme(input, pos, maxPos)` of the buffer-mode revision: strict
comparison of width-wide byte sums. -/
def BufChunker.isExtreme (c : BufChunker) (input : List Nat) (pos maxPos : Nat) : Bool :=
  let a := sumBytesAt c input pos
  let b := sumBytesAt c input maxPos
  match c.mode with
  | .MAX => decide (b < a)
  | .MIN => decide (a < b)

/-- The scan loop of `nextCutPoint`: `for i := maxPos + width; i < len(input); i += width`
with the `maxSize` check first, then the extreme update, else the
window-elapsed check.  `fuel` bounds the iteration count; the wrapper passes
`input.length`, which suffices since `i` grows by `width ≥ 1` each step. -/
def nextCutLoop (c : BufChunker) (input : List Nat) : Nat → Nat → Nat → Nat
  | _, _, 0 => input.length
  | maxPos, i, fuel+1 =>
    if i < input.length then
      if 0 < c.MaxSize ∧ c.MaxSize ≤ i then i
      else if c.isExtreme input i maxPos then
        nextCutLoop c input i (i + c.getWidth) fuel
      else if maxPos + c.getWindowSize ≤ i then i
      else nextCutLoop c input maxPos (i + c.getWidth) fuel
    else input.length

/-- `nextCutPoint`: initial extreme position is `getWidth`, the scan starts
one stride later. -/
def nextCutPoint (c : BufChunker) (input : List Nat) : Nat :=
  nextCutLoop c input c.getWidth (c.getWidth + c.getWidth) input.length

/-- The `Split` loop: repeatedly take `nextCutPoint` of the remaining data
and emit `Data[prevCut:cut]`. -/
def splitLoop (c : BufChunker) : Nat → Nat → List (List Nat)
  | _, 0 => []
  | cut, fuel+1 =>
    if cut < c.Data.length then
      ((c.Data.drop cut).take (nextCutPoint c (c.Data.drop cut))) ::
        splitLoop c (cut + nextCutPoint c (c.Data.drop cut)) fuel
    else []

/-- `Chunker.Split`: empty input short-circuits to no chunks, inputs shorter
than 3 bytes to a single chunk, then the configuration is validated, then
the data is cut greedily. -/
def split (c : BufChunker) : Except String (List (List Nat)) :=
  if c.Data.length = 0 then .ok []
  else if c.Data.length < 3 then .ok [c.Data]
  else if c.AverageSize < 3 then .error "AvgSize must not be less than 3"
  else if 0 < c.MaxSize ∧ c.MaxSize < c.AverageSize then
    .error "MaxSize must not be less than AverageSize"
  else .ok (splitLoop c 0 c.Data.length)

/-- The caller-supplied options carrier (`Options`). -/
structure Opts where
  AverageSize : Nat
  Mode : Extremum
  MaxSize : Nat
deriving DecidableEq

/-- One `Read(buf)` call against a packet source: take at most `k` bytes
from the head packet (returning fewer on partial availability), keep the
unread remainder of the packet at the head.  An exhausted source returns no
bytes (the distinguished end-of-input signal). -/
def rdRead : List (List Nat) → Nat → List Nat × List (List Nat)
  | [], _ => ([], [])
  | [] :: ps, k => rdRead ps k
  | (b :: bs) :: ps, k =>
    ((b :: bs).take k,
      if ((b :: bs).drop k).isEmpty then ps else ((b :: bs).drop k) :: ps)

/-- Total number of bytes a source still holds. -/
def rdTotal (r : List (List Nat)) : Nat := r.flatten.length

/-- The single-packet source: `bytes.NewReader(bs)`. -/
def ofBytes (bs : List Nat) : List (List Nat) := if bs.isEmpty then [] else [bs]

/-- The streaming chunker of `ae.go`: all parameters are derived once in
`NewChunker` and stored. -/
structure AeChunker where
  mode : Extremum
  avgSize : Nat
  windowSize : Nat
  minSize : Nat
  maxSize : Nat
  width : Nat
deriving DecidableEq

/-- `NewChunker` of `ae.go`: defaults `MAX / 256 MiB / 2 * 256 MiB` apply
only when the options pointer is nil; a non-nil carrier overrides all three
fields verbatim (including zero values). -/
def newChunkerAe (opts : Option Opts) : AeChunker :=
  let mode := match opts with | none => .MAX | some o => o.Mode
  let avgSize := match opts with | none => 256*1024*1024 | some o => o.AverageSize
  let maxSize := match opts with | none => 256*1024*1024*2 | some o => o.MaxSize
  let ws := windowSizeOf avgSize
  ⟨mode, avgSize, ws, avgSize - ws, maxSize, widthOf ws⟩

/-- `isExtreme` of the streaming revision: strict comparison of the byte
sums of the current read against the tracked extreme value. -/
def isExtremeAe (mode : Extremum) (cur prev : List Nat) : Bool :=
  match mode with
  | .MAX => decide (prev.sum < cur.sum)
  | .MIN => decide (cur.sum < prev.sum)

/-- The scan loop of `NextBytes`.  State: tracked extreme position and
value, loop counter `i` (advancing by `width` per iteration), accumulated
chunk, the reader, and the current length of the reused `curBytes` buffer
(`ch.curBytes = ch.curBytes[:n]` shrinks it after a short read, and it never
grows back).  A read of zero bytes breaks; otherwise the bytes are appended,
then the `maxSize` ceiling is checked, then the extreme update
(`copy(extremeValue, curBytes)` overwrites only the first `n` bytes), else
the window-elapsed check. -/
def nextBytesLoop (c : AeChunker) :
    Nat → Nat → List Nat → List Nat → List (List Nat) → Nat → Nat →
    List Nat × List (List Nat) × Nat
  | _, _, _, chunk, r, curLen, 0 => (chunk, r, curLen)
  | extremePos, i, ev, chunk, r, curLen, fuel+1 =>
    if (rdRead r curLen).1.length = 0 then (chunk, (rdRead r curLen).2, curLen)
    else
      if 0 < c.maxSize ∧ c.maxSize ≤ i then
        (chunk ++ (rdRead r curLen).1, (rdRead r curLen).2, (rdRead r curLen).1.length)
      else if isExtremeAe c.mode (rdRead r curLen).1 ev then
        nextBytesLoop c i (i + c.width)
          ((rdRead r curLen).1 ++ ev.drop (rdRead r curLen).1.length)
          (chunk ++ (rdRead r curLen).1) (rdRead r curLen).2
          (rdRead r curLen).1.length fuel
      else if extremePos + c.windowSize ≤ i then
        (chunk ++ (rdRead r curLen).1, (rdRead r curLen).2, (rdRead r curLen).1.length)
      else
        nextBytesLoop c extremePos (i + c.width) ev
          (chunk ++ (rdRead r curLen).1) (rdRead r curLen).2
          (rdRead r curLen).1.length fuel

/-- `Chunker.NextBytes`: the first read of `width` bytes becomes the initial
extreme value; a zero-byte first read signals end of input (`nil, io.EOF`),
a short first read is returned as a chunk immediately
(`extremeValue[:n], err`). Result: optional chunk, reader state, `curBytes`
length. -/
def nextBytes (c : AeChunker) (r : List (List Nat)) (curLen : Nat) :
    Option (List Nat) × List (List Nat) × Nat :=
  let p := rdRead r c.width
  if p.1.length = 0 then (none, p.2, curLen)
  else if p.1.length < c.width then (some p.1, p.2, curLen)
  else
    let q := nextBytesLoop c c.width (c.width + c.width) p.1 p.1 p.2 curLen (rdTotal p.2 + 1)
    (some q.1, q.2.1, q.2.2)

/-- The caller loop over `NextBytes` (as in the repository's `getChunks`):
collect chunks until the end-of-input signal. -/
def streamLoop (c : AeChunker) : List (List Nat) → Nat → Nat → List (List Nat)
  | _, _, 0 => []
  | r, curLen, fuel+1 =>
    match nextBytes c r curLen with
    | (none, _, _) => []
    | (some ch, r', curLen') => ch :: streamLoop c r' curLen' fuel

/-- A complete streaming session over a source. -/
def streamChunks (c : AeChunker) (r : List (List Nat)) : List (List Nat) :=
  streamLoop c r c.width (rdTotal r + 1)

/-- The segment-buffer chunker of the `NextChunk` revision. -/
structure SegChunker where
  mode : Extremum
  avgSize : Nat
  windowSize : Nat
  minSize : Nat
  maxSize : Nat
deriving DecidableEq

/-- `NewChunker` of the `NextChunk` revision: with a non-nil carrier, a zero
`AverageSize` falls back to the default and a zero `MaxSize` falls back to
`avgSize * 2`; with a nil carrier `maxSize` keeps its zero value. -/
def newChunker000 (opts : Option Opts) : SegChunker :=
  match opts with
  | none =>
    ⟨.MAX, 256*1024*1024, windowSizeOf (256*1024*1024),
      256*1024*1024 - windowSizeOf (256*1024*1024), 0⟩
  | some o =>
    let avg := if 0 < o.AverageSize then o.AverageSize else 256*1024*1024
    ⟨o.Mode, avg, windowSizeOf avg, avg - windowSizeOf avg,
      if 0 < o.MaxSize then o.MaxSize else avg * 2⟩

/-- Byte-granular `isExtreme` of the `NextChunk` revision. -/
def isExtremeByte (mode : Extremum) (cur prev : Nat) : Bool :=
  match mode with
  | .MAX => decide (prev < cur)
  | .MIN => decide (cur < prev)

/-- The scan loop of `nextChunkedSlice`: `for i := minSize; i < len(input); i++`
with the `maxSize` equality check first, then the marker update followed (in
the same iteration) by the window-elapsed equality check. -/
def nextChunkedLoop (c : SegChunker) (input : List Nat) : Nat → Nat → Nat → Nat
  | _, _, 0 => input.length
  | markerPos, i, fuel+1 =>
    if i < input.length then
      if i = c.maxSize then i
      else
        if i = (if isExtremeByte c.mode (input.getD i 0) (input.getD markerPos 0) then i
                else markerPos) + c.windowSize then i
        else
          nextChunkedLoop c input
            (if isExtremeByte c.mode (input.getD i 0) (input.getD markerPos 0) then i
             else markerPos) (i+1) fuel
    else input.length

/-- `nextChunkedSlice`: a window no longer than `minSize + windowSize` is a
single chunk; otherwise scan from `minSize` with the marker at 0. -/
def nextChunkedSlice (c : SegChunker) (input : List Nat) : List Nat :=
  if input.length ≤ c.minSize + c.windowSize then input
  else input.take (nextChunkedLoop c input 0 c.minSize input.length)

/-- `Chunker.NextChunk`: read up to `maxSize - len(overflow)` fresh bytes,
prepend the overflow, emit the next chunked slice and retain the remainder;
an empty subject signals end of input (`nil`). Result: optional chunk,
reader state, new overflow. -/
def nextChunk (c : SegChunker) (r : List (List Nat)) (overflow : List Nat) :
    Option (List Nat) × List (List Nat) × List Nat :=
  let p := rdRead r (c.maxSize - overflow.length)
  if (overflow ++ p.1).isEmpty then (none, p.2, overflow)
  else
    (some (nextChunkedSlice c (overflow ++ p.1)), p.2,
      (overflow ++ p.1).drop (nextChunkedSlice c (overflow ++ p.1)).length)

/-- The caller loop over `NextChunk`: collect chunks until the nil signal. -/
def segLoop (c : SegChunker) : List (List Nat) → List Nat → Nat → List (List Nat)
  | _, _, 0 => []
  | r, ov, fuel+1 =>
    match nextChunk c r ov with
    | (none, _, _) => []
    | (some ch, r', ov') => ch :: segLoop c r' ov' fuel

/-- A complete `NextChunk` session over a source (overflow starts empty). -/
def segChunks (c : SegChunker) (r : List (List Nat)) : List (List Nat) :=
  segLoop c r [] (rdTotal r + 1)

/-- Modelled from the spec: the spec's width formula
`width = round(windowSize / 256), floored to 1 if it rounds to 0`, with the
quotient rounded to the nearest integer (half away from zero) instead of
truncated.  Used only to compare the spec's words against `widthOf`. -/
def widthSpecRound (windowSize : Nat) : Nat :=
  if (windowSize + 128) / 256 = 0 then 1 else (windowSize + 128) / 256

/- ### Arithmetic facts about the derived parameters -/

theorem windowSizeOf_pos {a : Nat} (ha : 1 ≤ a) : 1 ≤ windowSizeOf a := by
  unfold windowSizeOf
  have h1 := Nat.div_add_mod (a * 4503599627370496 + 3869226701182825) 7738453402365650
  have h2 : (a * 4503599627370496 + 3869226701182825) % 7738453402365650 < 7738453402365650 :=
    Nat.mod_lt _ (by norm_num)
  omega

theorem windowSizeOf_le (a : Nat) : windowSizeOf a ≤ a := by
  unfold windowSizeOf
  have h1 := Nat.div_add_mod (a * 4503599627370496 + 3869226701182825) 7738453402365650
  have h2 : (a * 4503599627370496 + 3869226701182825) % 7738453402365650 < 7738453402365650 :=
    Nat.mod_lt _ (by norm_num)
  omega

theorem widthOf_pos (ws : Nat) : 1 ≤ widthOf ws := by
  unfold widthOf
  split <;> omega

/-- The minimum-size bound: for `avgSize ≥ 2` the theoretical minimum
`windowSize + width` never exceeds `avgSize`. -/
theorem minSize_le_avg {a : Nat} (ha : 2 ≤ a) :
    windowSizeOf a + widthOf (windowSizeOf a) ≤ a := by
  unfold windowSizeOf widthOf
  have h1 := Nat.div_add_mod (a * 4503599627370496 + 3869226701182825) 7738453402365650
  have h2 : (a * 4503599627370496 + 3869226701182825) % 7738453402365650 < 7738453402365650 :=
    Nat.mod_lt _ (by norm_num)
  have h3 := Nat.div_add_mod
    ((a * 4503599627370496 + 3869226701182825) / 7738453402365650) 256
  have h4 : (a * 4503599627370496 + 3869226701182825) / 7738453402365650 % 256 < 256 :=
    Nat.mod_lt _ (by norm_num)
  split <;> omega

theorem widthOf_lt_avg {a : Nat} (ha : 2 ≤ a) : widthOf (windowSizeOf a) < a := by
  have := minSize_le_avg ha
  have := windowSizeOf_pos (by omega : 1 ≤ a)
  omega

/- ### The buffer-mode scan: bounds, progress, stability -/

theorem nextCutLoop_ge (c : BufChunker) (input : List Nat) :
    ∀ fuel i maxPos, nextCutLoop c input maxPos i fuel = input.length ∨
      i ≤ nextCutLoop c input maxPos i fuel := by
  intro fuel
  induction fuel with
  | zero => intro i maxPos; left; rfl
  | succ f ih =>
    intro i maxPos
    simp only [nextCutLoop]
    split
    · split
      · right; exact Nat.le_refl i
      · split
        · rcases ih (i + c.getWidth) i with h | h
          · left; exact h
          · right; omega
        · split
          · right; exact Nat.le_refl i
          · rcases ih (i + c.getWidth) maxPos with h | h
            · left; exact h
            · right; omega
    · left; rfl

theorem nextCutLoop_le (c : BufChunker) (input : List Nat) :
    ∀ fuel i maxPos, nextCutLoop c input maxPos i fuel ≤ input.length := by
  intro fuel
  induction fuel with
  | zero => intro i maxPos; exact Nat.le_refl _
  | succ f ih =>
    intro i maxPos
    simp only [nextCutLoop]
    split
    · split
      · omega
      · split
        · exact ih (i + c.getWidth) i
        · split
          · omega
          · exact ih (i + c.getWidth) maxPos
    · exact Nat.le_refl _

theorem nextCutPoint_pos (c : BufChunker) (input : List Nat) (h : input ≠ []) :
    1 ≤ nextCutPoint c input := by
  have hw : 1 ≤ c.getWidth := widthOf_pos c.getWindowSize
  have hl : 0 < input.length := List.length_pos.mpr h
  rcases nextCutLoop_ge c input input.length (c.getWidth + c.getWidth) c.getWidth with h1 | h1
  · unfold nextCutPoint; omega
  · unfold nextCutPoint; omega

theorem nextCutPoint_le (c : BufChunker) (input : List Nat) :
    nextCutPoint c input ≤ input.length :=
  nextCutLoop_le c input input.length (c.getWidth + c.getWidth) c.getWidth

/-- When a maximum size is set, the scan loop's result stays below
`MaxSize + width`, provided the loop counter does and the fuel covers the
remaining length. -/
theorem nextCutLoop_lt_max (c : BufChunker) (input : List Nat) :
    ∀ fuel i maxPos, 0 < c.MaxSize → input.length ≤ i + fuel →
      i < c.MaxSize + c.getWidth →
      nextCutLoop c input maxPos i fuel < c.MaxSize + c.getWidth := by
  have hw : 1 ≤ c.getWidth := widthOf_pos c.getWindowSize
  intro fuel
  induction fuel with
  | zero => intro i maxPos h0 hfuel hi; simp only [nextCutLoop]; omega
  | succ f ih =>
    intro i maxPos h0 hfuel hi
    simp only [nextCutLoop]
    split
    · split
      · exact hi
      · rename_i hnc
        split
        · exact ih (i + c.getWidth) i h0 (by omega) (by omega)
        · split
          · exact hi
          · exact ih (i + c.getWidth) maxPos h0 (by omega) (by omega)
    · omega

/-- If the scan loop cuts strictly inside the input, the cut is at least
`MinSize = windowSize + width` away from the chunk start, provided the
tracked extreme position is at least `width` and any set maximum is at least
`MinSize`. -/
theorem nextCutLoop_min (c : BufChunker) (input : List Nat) :
    ∀ fuel i maxPos, c.getWidth ≤ maxPos → maxPos < i →
      (c.MaxSize = 0 ∨ c.MinSize ≤ c.MaxSize) →
      nextCutLoop c input maxPos i fuel < input.length →
      c.MinSize ≤ nextCutLoop c input maxPos i fuel := by
  have hw : 1 ≤ c.getWidth := widthOf_pos c.getWindowSize
  intro fuel
  induction fuel with
  | zero => intro i maxPos h1 h2 h3 h4; simp only [nextCutLoop] at h4 ⊢; omega
  | succ f ih =>
    intro i maxPos h1 h2 h3 h4
    simp only [nextCutLoop] at h4 ⊢
    split
    · rename_i hilen
      rw [if_pos hilen] at h4
      split
      · rename_i hmax
        rw [if_pos hmax] at h4
        unfold BufChunker.MinSize
        rcases h3 with h3 | h3
        · omega
        · unfold BufChunker.MinSize at h3; omega
      · rename_i hmax
        rw [if_neg hmax] at h4
        split
        · rename_i hext
          rw [if_pos hext] at h4
          exact ih (i + c.getWidth) i (by omega) (by omega) h3 h4
        · rename_i hext
          rw [if_neg hext] at h4
          split
          · rename_i hwin
            rw [if_pos hwin] at h4
            unfold BufChunker.MinSize
            omega
          · rename_i hwin
            rw [if_neg hwin] at h4
            exact ih (i + c.getWidth) maxPos h1 (by omega) h3 h4
    · rename_i hilen
      rw [if_neg hilen] at h4
      omega

/-- Fuel-stability of the scan loop: once the fuel covers the remaining
length, the result no longer depends on it — the Go loop, which has no fuel,
terminates with this value. -/
theorem nextCutLoop_stable (c : BufChunker) (input : List Nat) :
    ∀ f₁ f₂ i maxPos, input.length ≤ i + f₁ → f₁ ≤ f₂ →
      nextCutLoop c input maxPos i f₁ = nextCutLoop c input maxPos i f₂ := by
  have hw : 1 ≤ c.getWidth := widthOf_pos c.getWindowSize
  intro f₁
  induction f₁ with
  | zero =>
    intro f₂ i maxPos hfuel _
    cases f₂ with
    | zero => rfl
    | succ g => simp only [nextCutLoop]; rw [if_neg (by omega)]
  | succ f ih =>
    intro f₂ i maxPos hfuel hle
    cases f₂ with
    | zero => omega
    | succ g =>
      simp only [nextCutLoop]
      split
      · split
        · rfl
        · split
          · exact ih g (i + c.getWidth) i (by omega) (by omega)
          · split
            · rfl
            · exact ih g (i + c.getWidth) maxPos (by omega) (by omega)
      · rfl

/- ### The Split loop -/

theorem splitLoop_flatten (c : BufChunker) :
    ∀ fuel cut, c.Data.length ≤ cut + fuel →
      (splitLoop c cut fuel).flatten = c.Data.drop cut := by
  intro fuel
  induction fuel with
  | zero =>
    intro cut h
    simp only [splitLoop, List.flatten_nil]
    exact (List.drop_eq_nil_of_le (by omega)).symm
  | succ f ih =>
    intro cut h
    simp only [splitLoop]
    split
    · rename_i hcut
      have hne : c.Data.drop cut ≠ [] := by
        have : (c.Data.drop cut).length = c.Data.length - cut := List.length_drop cut c.Data
        intro hc; rw [hc] at this; simp at this; omega
      have hk1 : 1 ≤ nextCutPoint c (c.Data.drop cut) := nextCutPoint_pos c _ hne
      have hk2 : nextCutPoint c (c.Data.drop cut) ≤ (c.Data.drop cut).length :=
        nextCutPoint_le c _
      have hlen : (c.Data.drop cut).length = c.Data.length - cut := List.length_drop cut c.Data
      have hsplit := List.take_append_drop (nextCutPoint c (c.Data.drop cut)) (c.Data.drop cut)
      rw [List.drop_drop] at hsplit
      rw [List.flatten_cons, ih (cut + nextCutPoint c (c.Data.drop cut)) (by omega)]
      simp [Nat.add_comm] at hsplit
      simpa [Nat.add_comm] using hsplit
    · simp only [List.flatten_nil]
      exact (List.drop_eq_nil_of_le (by omega)).symm

theorem splitLoop_ne_nil (c : BufChunker) (cut fuel : Nat)
    (h : splitLoop c cut fuel ≠ []) : cut < c.Data.length ∧ 1 ≤ fuel := by
  cases fuel with
  | zero => simp [splitLoop] at h
  | succ f =>
    refine ⟨?_, by omega⟩
    by_contra hc
    simp only [splitLoop] at h
    rw [if_neg hc] at h
    exact h rfl

theorem splitLoop_mem_ne_nil (c : BufChunker) :
    ∀ fuel cut ch, ch ∈ splitLoop c cut fuel → ch ≠ [] := by
  intro fuel
  induction fuel with
  | zero => intro cut ch h; simp [splitLoop] at h
  | succ f ih =>
    intro cut ch h
    simp only [splitLoop] at h
    split at h
    · rename_i hcut
      rcases List.mem_cons.mp h with h | h
      · have hne : c.Data.drop cut ≠ [] := by
          have := List.length_drop cut c.Data
          intro hc; rw [hc] at this; simp at this; omega
        have hk1 : 1 ≤ nextCutPoint c (c.Data.drop cut) := nextCutPoint_pos c _ hne
        have hlen : (c.Data.drop cut).length = c.Data.length - cut := List.length_drop cut c.Data
        subst h
        intro hc
        have := congrArg List.length hc
        rw [List.length_take] at this
        simp at this
        omega
      · exact ih _ ch h
    · simp at h

/-- With a validated configuration (`3 ≤ AverageSize ≤ MaxSize`), every
chunk the Split loop emits is shorter than `MaxSize + width`. -/
theorem splitLoop_chunk_lt (c : BufChunker) (h3 : 3 ≤ c.AverageSize)
    (hm : c.AverageSize ≤ c.MaxSize) :
    ∀ fuel cut ch, ch ∈ splitLoop c cut fuel →
      ch.length < c.MaxSize + c.getWidth := by
  have hwa : c.getWidth = widthOf (windowSizeOf c.AverageSize) := rfl
  have hwlt : c.getWidth < c.AverageSize := by
    rw [hwa]; exact widthOf_lt_avg (by omega)
  intro fuel
  induction fuel with
  | zero => intro cut ch h; simp [splitLoop] at h
  | succ f ih =>
    intro cut ch h
    simp only [splitLoop] at h
    split at h
    · rename_i hcut
      rcases List.mem_cons.mp h with h | h
      · subst h
        rw [List.length_take]
        have := nextCutLoop_lt_max c (c.Data.drop cut) (c.Data.drop cut).length
          (c.getWidth + c.getWidth) c.getWidth (by omega) (by omega) (by omega)
        unfold nextCutPoint
        omega
      · exact ih _ ch h
    · simp at h

/-- Every chunk the Split loop emits strictly inside the data has length at
least `MinSize`, for validated configurations. -/
theorem splitLoop_dropLast_min (c : BufChunker) (h3 : 3 ≤ c.AverageSize)
    (hm : c.MaxSize = 0 ∨ c.AverageSize ≤ c.MaxSize) :
    ∀ fuel cut, c.Data.length ≤ cut + fuel →
      ∀ ch ∈ (splitLoop c cut fuel).dropLast, c.MinSize ≤ ch.length := by
  have hw : 1 ≤ c.getWidth := widthOf_pos c.getWindowSize
  have hminavg : c.MinSize ≤ c.AverageSize := minSize_le_avg (by omega)
  have hdisj : c.MaxSize = 0 ∨ c.MinSize ≤ c.MaxSize := by
    rcases hm with h | h
    · left; exact h
    · right; omega
  intro fuel
  induction fuel with
  | zero => intro cut h ch hch; simp [splitLoop] at hch
  | succ f ih =>
    intro cut h ch hch
    simp only [splitLoop] at hch
    split at hch
    · rename_i hcut
      have hne : c.Data.drop cut ≠ [] := by
        have := List.length_drop cut c.Data
        intro hc; rw [hc] at this; simp at this; omega
      have hlen : (c.Data.drop cut).length = c.Data.length - cut := List.length_drop cut c.Data
      have hk2 : nextCutPoint c (c.Data.drop cut) ≤ (c.Data.drop cut).length :=
        nextCutPoint_le c _
      rcases hrest : splitLoop c (cut + nextCutPoint c (c.Data.drop cut)) f with _ | ⟨y, t⟩
      · rw [hrest] at hch
        simp at hch
      · rw [hrest] at hch
        rw [List.dropLast_cons₂] at hch
        rcases List.mem_cons.mp hch with hh | hh
        · subst hh
          have hlt : cut + nextCutPoint c (c.Data.drop cut) < c.Data.length := by
            have := splitLoop_ne_nil c (cut + nextCutPoint c (c.Data.drop cut)) f
              (by rw [hrest]; simp)
            exact this.1
          have hklt : nextCutPoint c (c.Data.drop cut) < (c.Data.drop cut).length := by
            omega
          have hmin : c.MinSize ≤ nextCutPoint c (c.Data.drop cut) :=
            nextCutLoop_min c (c.Data.drop cut) (c.Data.drop cut).length
              (c.getWidth + c.getWidth) c.getWidth (by omega) (by omega) hdisj hklt
          rw [List.length_take]
          omega
        · rw [← hrest] at hh
          exact ih (cut + nextCutPoint c (c.Data.drop cut)) (by
            have hk1 : 1 ≤ nextCutPoint c (c.Data.drop cut) := nextCutPoint_pos c _ hne
            omega) ch hh
    · simp at hch

/-- Fuel-stability of the Split loop. -/
theorem splitLoop_stable (c : BufChunker) :
    ∀ f₁ f₂ cut, c.Data.length ≤ cut + f₁ → f₁ ≤ f₂ →
      splitLoop c cut f₁ = splitLoop c cut f₂ := by
  intro f₁
  induction f₁ with
  | zero =>
    intro f₂ cut hfuel _
    cases f₂ with
    | zero => rfl
    | succ g => simp only [splitLoop]; rw [if_neg (by omega)]
  | succ f ih =>
    intro f₂ cut hfuel hle
    cases f₂ with
    | zero => omega
    | succ g =>
      simp only [splitLoop]
      split
      · rename_i hcut
        have hne : c.Data.drop cut ≠ [] := by
          have := List.length_drop cut c.Data
          intro hc; rw [hc] at this; simp at this; omega
        have hk1 : 1 ≤ nextCutPoint c (c.Data.drop cut) := nextCutPoint_pos c _ hne
        rw [ih g (cut + nextCutPoint c (c.Data.drop cut)) (by omega) (by omega)]
      · rfl

/- ### The packet source -/

theorem rdRead_flatten (r : List (List Nat)) (k : Nat) :
    (rdRead r k).1 ++ (rdRead r k).2.flatten = r.flatten := by
  induction r with
  | nil => simp [rdRead]
  | cons p ps ih =>
    cases p with
    | nil => simpa [rdRead] using ih
    | cons b bs =>
      simp only [rdRead, List.flatten_cons]
      split
      · rename_i hemp
        have hdrop : (b :: bs).drop k = [] := by
          simpa [List.isEmpty_iff] using hemp
        have h2 := List.take_append_drop k (b :: bs)
        rw [hdrop, List.append_nil] at h2
        rw [h2]
      · rw [List.flatten_cons, ← List.append_assoc, List.take_append_drop]

theorem rdRead_len_le (r : List (List Nat)) (k : Nat) :
    (rdRead r k).1.length ≤ k := by
  induction r with
  | nil => simp [rdRead]
  | cons p ps ih =>
    cases p with
    | nil => simpa [rdRead] using ih
    | cons b bs =>
      simp only [rdRead]
      rw [List.length_take]
      omega

theorem rdRead_of_flatten_nil (r : List (List Nat)) (k : Nat)
    (h : r.flatten = []) : rdRead r k = ([], []) := by
  induction r with
  | nil => rfl
  | cons p ps ih =>
    cases p with
    | nil =>
      simp only [List.flatten_cons, List.nil_append] at h
      simpa [rdRead] using ih h
    | cons b bs => simp at h

theorem rdRead_ne_nil (r : List (List Nat)) (k : Nat) (hk : 1 ≤ k)
    (hr : r.flatten ≠ []) : (rdRead r k).1 ≠ [] := by
  induction r with
  | nil => simp at hr
  | cons p ps ih =>
    cases p with
    | nil =>
      simp only [List.flatten_cons, List.nil_append] at hr
      simpa [rdRead] using ih hr
    | cons b bs =>
      simp only [rdRead]
      cases k with
      | zero => omega
      | succ m => simp

/- ### The streaming scan loop -/

theorem nextBytesLoop_flatten (c : AeChunker) :
    ∀ fuel extremePos i ev chunk r curLen,
      (nextBytesLoop c extremePos i ev chunk r curLen fuel).1 ++
        (nextBytesLoop c extremePos i ev chunk r curLen fuel).2.1.flatten =
      chunk ++ r.flatten := by
  intro fuel
  induction fuel with
  | zero => intro extremePos i ev chunk r curLen; rfl
  | succ f ih =>
    intro extremePos i ev chunk r curLen
    have hcons := rdRead_flatten r curLen
    simp only [nextBytesLoop]
    split
    · rename_i h0
      have h1 : (rdRead r curLen).1 = [] := List.eq_nil_of_length_eq_zero h0
      rw [h1, List.nil_append] at hcons
      simpa using congrArg (chunk ++ ·) hcons
    · split
      · rw [List.append_assoc, hcons]
      · split
        · rw [ih, List.append_assoc, hcons]
        · split
          · rw [List.append_assoc, hcons]
          · rw [ih, List.append_assoc, hcons]

theorem nextBytesLoop_len_mono (c : AeChunker) :
    ∀ fuel extremePos i ev chunk r curLen,
      chunk.length ≤ (nextBytesLoop c extremePos i ev chunk r curLen fuel).1.length := by
  intro fuel
  induction fuel with
  | zero => intro extremePos i ev chunk r curLen; exact Nat.le_refl _
  | succ f ih =>
    intro extremePos i ev chunk r curLen
    simp only [nextBytesLoop]
    split
    · exact Nat.le_refl _
    · split
      · simp
      · split
        · exact Nat.le_trans (by simp) (ih _ _ _ _ _ _)
        · split
          · simp
          · exact Nat.le_trans (by simp) (ih _ _ _ _ _ _)

theorem nextBytes_of_flatten_nil (c : AeChunker) (r : List (List Nat)) (curLen : Nat)
    (h : r.flatten = []) : nextBytes c r curLen = (none, [], curLen) := by
  simp only [nextBytes, rdRead_of_flatten_nil r c.width h]
  rfl

theorem nextBytes_some_ne_none (c : AeChunker) (r : List (List Nat)) (curLen : Nat)
    (hw : 1 ≤ c.width) (hr : r.flatten ≠ []) : (nextBytes c r curLen).1 ≠ none := by
  have h1 := rdRead_ne_nil r c.width hw hr
  simp only [nextBytes]
  split
  · rename_i h0
    exact absurd (List.eq_nil_of_length_eq_zero h0) h1
  · split
    · simp
    · simp

/-- Case analysis of `NextBytes`: immediate end of input, a short first
read returned as a chunk, or the scan loop. -/
theorem nextBytes_cases (c : AeChunker) (r : List (List Nat)) (curLen : Nat) :
    ((rdRead r c.width).1 = [] ∧ nextBytes c r curLen = (none, (rdRead r c.width).2, curLen)) ∨
    ((rdRead r c.width).1 ≠ [] ∧ (rdRead r c.width).1.length < c.width ∧
      nextBytes c r curLen = (some (rdRead r c.width).1, (rdRead r c.width).2, curLen)) ∨
    ((rdRead r c.width).1 ≠ [] ∧ c.width ≤ (rdRead r c.width).1.length ∧
      nextBytes c r curLen =
        (some (nextBytesLoop c c.width (c.width + c.width) (rdRead r c.width).1
            (rdRead r c.width).1 (rdRead r c.width).2 curLen (rdTotal (rdRead r c.width).2 + 1)).1,
          (nextBytesLoop c c.width (c.width + c.width) (rdRead r c.width).1
            (rdRead r c.width).1 (rdRead r c.width).2 curLen (rdTotal (rdRead r c.width).2 + 1)).2.1,
          (nextBytesLoop c c.width (c.width + c.width) (rdRead r c.width).1
            (rdRead r c.width).1 (rdRead r c.width).2 curLen
            (rdTotal (rdRead r c.width).2 + 1)).2.2)) := by
  simp only [nextBytes]
  split
  · rename_i h0
    left
    exact ⟨List.eq_nil_of_length_eq_zero h0, rfl⟩
  · rename_i h0
    have hne : (rdRead r c.width).1 ≠ [] := by
      intro hc; rw [hc] at h0; simp at h0
    split
    · rename_i h1
      right; left
      exact ⟨hne, h1, rfl⟩
    · rename_i h1
      right; right
      exact ⟨hne, by omega, rfl⟩

theorem nextBytes_some (c : AeChunker) (r : List (List Nat)) (curLen : Nat)
    (ch : List Nat) (h : (nextBytes c r curLen).1 = some ch) :
    ch ≠ [] ∧ ch ++ (nextBytes c r curLen).2.1.flatten = r.flatten := by
  have hcons := rdRead_flatten r c.width
  rcases nextBytes_cases c r curLen with ⟨h1, h2⟩ | ⟨h1, h2, h3⟩ | ⟨h1, h2, h3⟩
  · rw [h2] at h; simp at h
  · rw [h3] at h ⊢
    simp only [Option.some_inj] at h
    subst h
    exact ⟨h1, hcons⟩
  · rw [h3] at h ⊢
    simp only [Option.some_inj] at h
    subst h
    constructor
    · intro hc
      have hm := nextBytesLoop_len_mono c (rdTotal (rdRead r c.width).2 + 1)
        c.width (c.width + c.width) (rdRead r c.width).1 (rdRead r c.width).1
        (rdRead r c.width).2 curLen
      rw [hc] at hm
      simp only [List.length_nil, Nat.le_zero] at hm
      exact h1 (List.eq_nil_of_length_eq_zero hm)
    · simp only []
      rw [nextBytesLoop_flatten, hcons]

/- ### The streaming session -/

theorem streamLoop_flatten (c : AeChunker) (hw : 1 ≤ c.width) :
    ∀ fuel r curLen, rdTotal r < fuel →
      (streamLoop c r curLen fuel).flatten = r.flatten := by
  intro fuel
  induction fuel with
  | zero => intro r curLen hfuel; omega
  | succ f ih =>
    intro r curLen hfuel
    rcases hnb : nextBytes c r curLen with ⟨o, r', cl'⟩
    cases o with
    | none =>
      have hflat : r.flatten = [] := by
        by_contra hc
        exact nextBytes_some_ne_none c r curLen hw hc (by rw [hnb])
      simp only [streamLoop, hnb]
      simp [hflat]
    | some ch =>
      have hsp := nextBytes_some c r curLen ch (by rw [hnb])
      rw [hnb] at hsp
      simp only at hsp
      have hlen := congrArg List.length hsp.2
      simp only [List.length_append] at hlen
      have hch : 1 ≤ ch.length := by
        have := hsp.1
        cases ch with
        | nil => simp at this
        | cons a t => simp
      simp only [streamLoop, hnb, List.flatten_cons]
      rw [ih r' cl' (by unfold rdTotal at hfuel ⊢; omega)]
      exact hsp.2

theorem streamLoop_mem_ne_nil (c : AeChunker) :
    ∀ fuel r curLen ch, ch ∈ streamLoop c r curLen fuel → ch ≠ [] := by
  intro fuel
  induction fuel with
  | zero => intro r curLen ch h; simp [streamLoop] at h
  | succ f ih =>
    intro r curLen ch h
    rcases hnb : nextBytes c r curLen with ⟨o, r', cl'⟩
    cases o with
    | none => simp only [streamLoop, hnb] at h; simp at h
    | some x =>
      simp only [streamLoop, hnb] at h
      rcases List.mem_cons.mp h with h | h
      · subst h
        exact (nextBytes_some c r curLen ch (by rw [hnb])).1
      · exact ih r' cl' ch h

theorem newChunkerAe_width_pos (o : Option Opts) : 1 ≤ (newChunkerAe o).width := by
  cases o <;> simp only [newChunkerAe] <;> exact widthOf_pos _

theorem streamChunks_flatten (c : AeChunker) (hw : 1 ≤ c.width)
    (r : List (List Nat)) : (streamChunks c r).flatten = r.flatten :=
  streamLoop_flatten c hw (rdTotal r + 1) r c.width (by omega)

/- ### The segment-buffer scan -/

theorem nextChunkedLoop_le (c : SegChunker) (input : List Nat) :
    ∀ fuel m i, nextChunkedLoop c input m i fuel ≤ input.length := by
  intro fuel
  induction fuel with
  | zero => intro m i; exact Nat.le_refl _
  | succ f ih =>
    intro m i
    simp only [nextChunkedLoop]
    split
    · split
      · omega
      · split
        · split
          · omega
          · exact ih _ _
        · split
          · omega
          · exact ih _ _
    · exact Nat.le_refl _

theorem nextChunkedLoop_pos (c : SegChunker) (input : List Nat)
    (hmax : 0 < c.maxSize) (hws : 1 ≤ c.windowSize) (hlen : 1 ≤ input.length) :
    ∀ fuel m i, 1 ≤ nextChunkedLoop c input m i fuel := by
  intro fuel
  induction fuel with
  | zero => intro m i; simpa [nextChunkedLoop] using hlen
  | succ f ih =>
    intro m i
    simp only [nextChunkedLoop]
    split
    · split
      · omega
      · split
        · split
          · omega
          · exact ih _ _
        · split
          · omega
          · exact ih _ _
    · exact hlen

/-- The next chunked slice of a nonempty subject is nonempty and is an
initial segment: appending the dropped remainder recovers the subject. -/
theorem nextChunkedSlice_spec (c : SegChunker) (input : List Nat)
    (h : input ≠ []) (hmax : 0 < c.maxSize) (hws : 1 ≤ c.windowSize) :
    nextChunkedSlice c input ≠ [] ∧
      nextChunkedSlice c input ++ input.drop (nextChunkedSlice c input).length = input := by
  have hlen : 1 ≤ input.length := List.length_pos.mpr h
  unfold nextChunkedSlice
  split
  · refine ⟨h, ?_⟩
    rw [List.drop_length, List.append_nil]
  · have h1 : 1 ≤ nextChunkedLoop c input 0 c.minSize input.length :=
      nextChunkedLoop_pos c input hmax hws hlen input.length 0 c.minSize
    have h2 : nextChunkedLoop c input 0 c.minSize input.length ≤ input.length :=
      nextChunkedLoop_le c input input.length 0 c.minSize
    constructor
    · intro hc
      have := congrArg List.length hc
      rw [List.length_take] at this
      simp only [List.length_nil] at this
      omega
    · rw [List.length_take, Nat.min_eq_left h2]
      exact List.take_append_drop _ _

theorem rdRead_zero (r : List (List Nat)) : (rdRead r 0).1 = [] := by
  induction r with
  | nil => rfl
  | cons p ps ih =>
    cases p with
    | nil => simpa [rdRead] using ih
    | cons b bs => simp [rdRead]

/-- Case analysis of `NextChunk`. -/
theorem nextChunk_cases (c : SegChunker) (r : List (List Nat)) (ov : List Nat) :
    (ov ++ (rdRead r (c.maxSize - ov.length)).1 = [] ∧
      nextChunk c r ov = (none, (rdRead r (c.maxSize - ov.length)).2, ov)) ∨
    (ov ++ (rdRead r (c.maxSize - ov.length)).1 ≠ [] ∧
      nextChunk c r ov =
        (some (nextChunkedSlice c (ov ++ (rdRead r (c.maxSize - ov.length)).1)),
          (rdRead r (c.maxSize - ov.length)).2,
          (ov ++ (rdRead r (c.maxSize - ov.length)).1).drop
            (nextChunkedSlice c (ov ++ (rdRead r (c.maxSize - ov.length)).1)).length)) := by
  simp only [nextChunk]
  split
  · rename_i hemp
    left
    exact ⟨List.isEmpty_iff.mp hemp, rfl⟩
  · rename_i hemp
    right
    refine ⟨fun hc => hemp (by rw [hc]; rfl), rfl⟩

theorem segLoop_flatten (c : SegChunker) (hmax : 0 < c.maxSize) (hws : 1 ≤ c.windowSize) :
    ∀ fuel r ov, rdTotal r + ov.length < fuel →
      (segLoop c r ov fuel).flatten = ov ++ r.flatten := by
  intro fuel
  induction fuel with
  | zero => intro r ov hfuel; omega
  | succ f ih =>
    intro r ov hfuel
    have hcons := rdRead_flatten r (c.maxSize - ov.length)
    rcases nextChunk_cases c r ov with ⟨hemp, heq⟩ | ⟨hne, heq⟩
    · simp only [segLoop, heq]
      have hov : ov = [] := (List.append_eq_nil.mp hemp).1
      have h1 : (rdRead r (c.maxSize - ov.length)).1 = [] := (List.append_eq_nil.mp hemp).2
      have hr : r.flatten = [] := by
        by_contra hc
        exact rdRead_ne_nil r (c.maxSize - ov.length)
          (by rw [hov]; simpa using hmax) hc h1
      simp [hov, hr]
    · have hsl := nextChunkedSlice_spec c (ov ++ (rdRead r (c.maxSize - ov.length)).1)
        hne hmax hws
      have hslen : 1 ≤ (nextChunkedSlice c (ov ++ (rdRead r (c.maxSize - ov.length)).1)).length :=
        List.length_pos.mpr hsl.1
      have hlen1 := congrArg List.length hcons
      simp only [List.length_append] at hlen1
      have hlen2 := congrArg List.length hsl.2
      simp only [List.length_append, List.length_drop, List.length_append] at hlen2
      simp only [segLoop, heq, List.flatten_cons]
      rw [ih _ _ (by
        simp only [rdTotal] at hfuel ⊢
        simp only [List.length_drop, List.length_append]
        omega)]
      rw [← List.append_assoc, hsl.2, List.append_assoc]
      rw [hcons]

theorem segLoop_mem_ne_nil (c : SegChunker) (hmax : 0 < c.maxSize) (hws : 1 ≤ c.windowSize) :
    ∀ fuel r ov ch, ch ∈ segLoop c r ov fuel → ch ≠ [] := by
  intro fuel
  induction fuel with
  | zero => intro r ov ch h; simp [segLoop] at h
  | succ f ih =>
    intro r ov ch h
    rcases nextChunk_cases c r ov with ⟨hemp, heq⟩ | ⟨hne, heq⟩
    · simp only [segLoop, heq] at h
      simp at h
    · simp only [segLoop, heq] at h
      rcases List.mem_cons.mp h with h | h
      · subst h
        exact (nextChunkedSlice_spec c _ hne hmax hws).1
      · exact ih _ _ ch h

/-- With a nil options carrier the `NextChunk` revision keeps `maxSize = 0`,
reads nothing, and every session emits no chunks at all. -/
theorem segChunks_none_opts (r : List (List Nat)) :
    segChunks (newChunker000 none) r = [] := by
  have hms : (newChunker000 none).maxSize = 0 := rfl
  unfold segChunks
  rcases hf : rdTotal r + 1 with _ | f
  · rfl
  · rcases nextChunk_cases (newChunker000 none) r [] with ⟨_, heq⟩ | ⟨hne, heq⟩
    · simp only [segLoop, heq]
    · rw [hms] at hne
      simp only [Nat.zero_sub, List.nil_append] at hne
      exact absurd (rdRead_zero r) hne

/- ### Single-packet sources (`bytes.Reader`) -/

theorem ofBytes_flatten (bs : List Nat) : (ofBytes bs).flatten = bs := by
  cases bs <;> simp [ofBytes]

theorem rdRead_ofBytes (bs : List Nat) (k : Nat) :
    rdRead (ofBytes bs) k = (bs.take k, ofBytes (bs.drop k)) := by
  cases bs with
  | nil => simp [ofBytes, rdRead]
  | cons b t =>
    show rdRead [b :: t] k = _
    simp [rdRead, ofBytes]

theorem nextBytesLoop_reader_empty (c : AeChunker) (fuel extremePos i : Nat)
    (ev chunk : List Nat) (r : List (List Nat)) (curLen : Nat)
    (h : r.flatten = []) :
    (nextBytesLoop c extremePos i ev chunk r curLen fuel).2.1.flatten = [] := by
  have h1 := nextBytesLoop_flatten c fuel extremePos i ev chunk r curLen
  have h2 := nextBytesLoop_len_mono c fuel extremePos i ev chunk r curLen
  have h3 := congrArg List.length h1
  simp only [List.length_append, h, List.append_nil] at h3
  exact List.eq_nil_of_length_eq_zero (by omega)

theorem nextBytesLoop_ofBytes (c : AeChunker) :
    ∀ fuel extremePos i ev chunk bs curLen, ∃ cs,
      (nextBytesLoop c extremePos i ev chunk (ofBytes bs) curLen fuel).2.1 = ofBytes cs := by
  intro fuel
  induction fuel with
  | zero => intro extremePos i ev chunk bs curLen; exact ⟨bs, rfl⟩
  | succ f ih =>
    intro extremePos i ev chunk bs curLen
    simp only [nextBytesLoop, rdRead_ofBytes]
    split
    · exact ⟨bs.drop curLen, rfl⟩
    · split
      · exact ⟨bs.drop curLen, rfl⟩
      · split
        · exact ih _ _ _ _ _ _
        · split
          · exact ⟨bs.drop curLen, rfl⟩
          · exact ih _ _ _ _ _ _

/-- Over a single-packet source in the full-read regime, the scan loop
either drains the source or ends at a cut of at least
`windowSize + width` bytes, leaving the `curBytes` buffer at full width. -/
theorem nextBytesLoop_min (c : AeChunker) (hw : 1 ≤ c.width)
    (hmax : c.maxSize = 0 ∨ c.windowSize + c.width ≤ c.maxSize) :
    ∀ fuel extremePos i ev chunk bs,
      bs.length < fuel →
      chunk.length + c.width = i →
      c.width ≤ extremePos →
      (nextBytesLoop c extremePos i ev chunk (ofBytes bs) c.width fuel).2.1.flatten = [] ∨
      (c.windowSize + c.width ≤
          (nextBytesLoop c extremePos i ev chunk (ofBytes bs) c.width fuel).1.length ∧
        (nextBytesLoop c extremePos i ev chunk (ofBytes bs) c.width fuel).2.2 = c.width) := by
  intro fuel
  induction fuel with
  | zero => intro extremePos i ev chunk bs hfuel; omega
  | succ f ih =>
    intro extremePos i ev chunk bs hfuel hchunk hep
    simp only [nextBytesLoop, rdRead_ofBytes]
    by_cases hbs : bs.length < c.width
    · -- a short (or empty) read drains the single packet
      have hdrop : bs.drop c.width = [] := List.drop_eq_nil_of_le (by omega)
      split
      · left; rw [hdrop]; rfl
      · rw [hdrop]
        split
        · left; rfl
        · split
          · left
            exact nextBytesLoop_reader_empty c f _ _ _ _ _ _ rfl
          · split
            · left; rfl
            · left
              exact nextBytesLoop_reader_empty c f _ _ _ _ _ _ rfl
    · -- full-width read
      have htake : (bs.take c.width).length = c.width := by
        rw [List.length_take]; omega
      split
      · rename_i h0
        rw [htake] at h0
        omega
      · split
        · rename_i hmx
          right
          constructor
          · simp only [List.length_append, htake]
            rcases hmax with h | h
            · omega
            · omega
          · exact htake
        · split
          · have := ih i (i + c.width) (bs.take c.width ++ ev.drop (bs.take c.width).length)
              (chunk ++ bs.take c.width) (bs.drop c.width)
            rw [htake] at this ⊢
            apply this
            · rw [List.length_drop]; omega
            · simp only [List.length_append, htake]; omega
            · omega
          · split
            · rename_i hwin
              right
              refine ⟨?_, htake⟩
              simp only [List.length_append, htake]
              omega
            · have := ih extremePos (i + c.width) ev
                (chunk ++ bs.take c.width) (bs.drop c.width)
              rw [htake]
              apply this
              · rw [List.length_drop]; omega
              · simp only [List.length_append, htake]; omega
              · omega

theorem streamLoop_of_flatten_nil (c : AeChunker) (r : List (List Nat))
    (curLen fuel : Nat) (h : r.flatten = []) : streamLoop c r curLen fuel = [] := by
  cases fuel with
  | zero => rfl
  | succ f => simp only [streamLoop, nextBytes_of_flatten_nil c r curLen h]

theorem nextBytes_ofBytes_spec (c : AeChunker) (hw : 1 ≤ c.width)
    (hmax : c.maxSize = 0 ∨ c.windowSize + c.width ≤ c.maxSize) (bs : List Nat) :
    ∃ cs, (nextBytes c (ofBytes bs) c.width).2.1 = ofBytes cs ∧
      ((nextBytes c (ofBytes bs) c.width).2.2 = c.width ∨ cs = []) := by
  rcases nextBytes_cases c (ofBytes bs) c.width with ⟨h1, h2⟩ | ⟨h1, h1', h2⟩ | ⟨h1, h1', h2⟩
  · refine ⟨bs.drop c.width, ?_, Or.inl ?_⟩
    · rw [h2]; simp only []
      rw [rdRead_ofBytes]
    · rw [h2]
  · refine ⟨bs.drop c.width, ?_, Or.inl ?_⟩
    · rw [h2]; simp only []
      rw [rdRead_ofBytes]
    · rw [h2]
  · rw [rdRead_ofBytes] at h1 h1' h2
    simp only at h1 h1' h2
    have htake : (bs.take c.width).length = c.width := by
      have := List.length_take c.width bs
      have h3 := rdRead_len_le (ofBytes bs) c.width
      rw [rdRead_ofBytes] at h3
      simp only at h3
      omega
    have hmin := nextBytesLoop_min c hw hmax (rdTotal (ofBytes (bs.drop c.width)) + 1)
      c.width (c.width + c.width) (bs.take c.width) (bs.take c.width) (bs.drop c.width)
      (by unfold rdTotal; rw [ofBytes_flatten]; omega) (by omega) (by omega)
    obtain ⟨cs, hcs⟩ := nextBytesLoop_ofBytes c (rdTotal (ofBytes (bs.drop c.width)) + 1)
      c.width (c.width + c.width) (bs.take c.width) (bs.take c.width) (bs.drop c.width) c.width
    refine ⟨cs, ?_, ?_⟩
    · rw [h2]; simp only []
      exact hcs
    · rcases hmin with hmin | hmin
      · right
        rw [hcs, ofBytes_flatten] at hmin
        exact hmin
      · left
        rw [h2]; simp only []
        exact hmin.2

theorem nextBytes_ofBytes_min (c : AeChunker) (hw : 1 ≤ c.width)
    (hmax : c.maxSize = 0 ∨ c.windowSize + c.width ≤ c.maxSize) (bs ch : List Nat)
    (h : (nextBytes c (ofBytes bs) c.width).1 = some ch)
    (hr : (nextBytes c (ofBytes bs) c.width).2.1.flatten ≠ []) :
    c.windowSize + c.width ≤ ch.length := by
  rcases nextBytes_cases c (ofBytes bs) c.width with ⟨h1, h2⟩ | ⟨h1, h1', h2⟩ | ⟨h1, h1', h2⟩
  · rw [h2] at h; simp at h
  · rw [rdRead_ofBytes] at h1 h1' h2
    simp only at h1 h1' h2
    have hlt : bs.length < c.width := by
      have := List.length_take c.width bs
      omega
    have hdrop : bs.drop c.width = [] := List.drop_eq_nil_of_le (by omega)
    rw [h2] at hr
    simp only [hdrop] at hr
    simp [ofBytes] at hr
  · rw [rdRead_ofBytes] at h1 h1' h2
    simp only at h1 h1' h2
    have htake : (bs.take c.width).length = c.width := by
      have := List.length_take c.width bs
      omega
    have hmin := nextBytesLoop_min c hw hmax (rdTotal (ofBytes (bs.drop c.width)) + 1)
      c.width (c.width + c.width) (bs.take c.width) (bs.take c.width) (bs.drop c.width)
      (by unfold rdTotal; rw [ofBytes_flatten]; omega) (by omega) (by omega)
    rw [h2] at h hr
    simp only [Option.some_inj] at h
    subst h
    simp only at hr
    rcases hmin with hmin | hmin
    · exact absurd hmin hr
    · exact hmin.1

/-- Over a `bytes.Reader` source, every chunk a streaming session emits
except the last one has at least the theoretical minimum size. -/
theorem streamLoop_dropLast_min (c : AeChunker) (hw : 1 ≤ c.width)
    (hmax : c.maxSize = 0 ∨ c.windowSize + c.width ≤ c.maxSize) :
    ∀ fuel bs, ∀ ch ∈ (streamLoop c (ofBytes bs) c.width fuel).dropLast,
      c.windowSize + c.width ≤ ch.length := by
  intro fuel
  induction fuel with
  | zero => intro bs ch h; simp [streamLoop] at h
  | succ f ih =>
    intro bs ch h
    rcases hnb : nextBytes c (ofBytes bs) c.width with ⟨o, r', cl'⟩
    cases o with
    | none => simp only [streamLoop, hnb] at h; simp at h
    | some x =>
      obtain ⟨cs, hcs, hcl⟩ := nextBytes_ofBytes_spec c hw hmax bs
      rw [hnb] at hcs hcl
      simp only at hcs hcl
      subst hcs
      simp only [streamLoop, hnb] at h
      rcases hrest : streamLoop c (ofBytes cs) cl' f with _ | ⟨y, t⟩
      · rw [hrest] at h
        simp at h
      · rw [hrest, List.dropLast_cons₂] at h
        rcases List.mem_cons.mp h with h | h
        · subst h
          have hrne : (ofBytes cs).flatten ≠ [] := by
            intro hc
            rw [streamLoop_of_flatten_nil c (ofBytes cs) cl' f hc] at hrest
            simp at hrest
          exact nextBytes_ofBytes_min c hw hmax bs ch (by rw [hnb]) (by rw [hnb]; exact hrne)
        · have hclw : cl' = c.width := by
            rcases hcl with h1 | h1
            · exact h1
            · subst h1
              rw [streamLoop_of_flatten_nil c (ofBytes []) cl' f (by simp [ofBytes])] at hrest
              simp at hrest
          rw [← hrest, hclw] at h
          exact ih cs ch h

/- ### Upper bounds over the ceiling in the streaming scan -/

theorem nextBytesLoop_lt_max (c : AeChunker) (h0 : 0 < c.maxSize) :
    ∀ fuel extremePos i ev chunk r curLen,
      curLen ≤ c.width → chunk.length + c.width ≤ i → i < c.maxSize + c.width →
      (nextBytesLoop c extremePos i ev chunk r curLen fuel).1.length <
        c.maxSize + c.width := by
  intro fuel
  induction fuel with
  | zero =>
    intro extremePos i ev chunk r curLen hcl hchunk hi
    simp only [nextBytesLoop]
    omega
  | succ f ih =>
    intro extremePos i ev chunk r curLen hcl hchunk hi
    have hn := rdRead_len_le r curLen
    simp only [nextBytesLoop]
    split
    · dsimp only
      omega
    · split
      · dsimp only
        rw [List.length_append]
        omega
      · rename_i hb0 hmx
        have hixm : i < c.maxSize := by omega
        split
        · apply ih
          · omega
          · rw [List.length_append]; omega
          · omega
        · split
          · dsimp only
            rw [List.length_append]
            omega
          · apply ih
            · omega
            · rw [List.length_append]; omega
            · omega

theorem nextBytesLoop_curLen_le (c : AeChunker) :
    ∀ fuel extremePos i ev chunk r curLen,
      (nextBytesLoop c extremePos i ev chunk r curLen fuel).2.2 ≤ curLen := by
  intro fuel
  induction fuel with
  | zero => intro extremePos i ev chunk r curLen; exact Nat.le_refl _
  | succ f ih =>
    intro extremePos i ev chunk r curLen
    have hn := rdRead_len_le r curLen
    simp only [nextBytesLoop]
    split
    · exact Nat.le_refl _
    · split
      · exact hn
      · split
        · exact Nat.le_trans (ih _ _ _ _ _ _) hn
        · split
          · exact hn
          · exact Nat.le_trans (ih _ _ _ _ _ _) hn

theorem nextBytes_curLen_le (c : AeChunker) (r : List (List Nat)) (curLen : Nat) :
    (nextBytes c r curLen).2.2 ≤ curLen := by
  rcases nextBytes_cases c r curLen with ⟨h1, h2⟩ | ⟨h1, h1', h2⟩ | ⟨h1, h1', h2⟩
  · rw [h2]
  · rw [h2]
  · rw [h2]
    exact nextBytesLoop_curLen_le c _ _ _ _ _ _ _

theorem nextBytes_chunk_lt (c : AeChunker) (h0 : 0 < c.maxSize)
    (hwm : c.width < c.maxSize) (r : List (List Nat)) (curLen : Nat) (ch : List Nat)
    (hcl : curLen ≤ c.width) (h : (nextBytes c r curLen).1 = some ch) :
    ch.length < c.maxSize + c.width := by
  rcases nextBytes_cases c r curLen with ⟨h1, h2⟩ | ⟨h1, h1', h2⟩ | ⟨h1, h1', h2⟩
  · rw [h2] at h; simp at h
  · rw [h2] at h
    simp only [Option.some_inj] at h
    subst h
    omega
  · have htake : (rdRead r c.width).1.length = c.width := by
      have := rdRead_len_le r c.width
      omega
    rw [h2] at h
    simp only [Option.some_inj] at h
    subst h
    exact nextBytesLoop_lt_max c h0 _ _ _ _ _ _ _ hcl (by omega) (by omega)

/-- With a positive ceiling above the stride, every chunk a streaming
session emits (over any source) is shorter than `maxSize + width`. -/
theorem streamLoop_chunk_lt (c : AeChunker) (h0 : 0 < c.maxSize)
    (hwm : c.width < c.maxSize) :
    ∀ fuel r curLen, curLen ≤ c.width →
      ∀ ch ∈ streamLoop c r curLen fuel, ch.length < c.maxSize + c.width := by
  intro fuel
  induction fuel with
  | zero => intro r curLen hcl ch h; simp [streamLoop] at h
  | succ f ih =>
    intro r curLen hcl ch h
    rcases hnb : nextBytes c r curLen with ⟨o, r', cl'⟩
    cases o with
    | none => simp only [streamLoop, hnb] at h; simp at h
    | some x =>
      simp only [streamLoop, hnb] at h
      rcases List.mem_cons.mp h with h | h
      · subst h
        exact nextBytes_chunk_lt c h0 hwm r curLen ch hcl (by rw [hnb])
      · have hcl' : cl' ≤ c.width := by
          have := nextBytes_curLen_le c r curLen
          rw [hnb] at this
          simp only at this
          omega
        exact ih r' cl' hcl' ch h

/- ### Determinism across aligned packetizations -/

/-- A packetization whose packets are all nonempty and, except possibly the
last, of length divisible by `w`.  Such a source satisfies every `w`-byte
read in full while at least `w` bytes remain (e.g. any single-packet
source, or `w`-byte granular delivery). -/
def alignedPackets (w : Nat) (P : List (List Nat)) : Prop :=
  (∀ p ∈ P, p ≠ []) ∧ (∀ p ∈ P.dropLast, w ∣ p.length)

theorem alignedPackets_nil (w : Nat) : alignedPackets w [] := by
  constructor <;> simp

theorem alignedPackets_ofBytes (w : Nat) (bs : List Nat) :
    alignedPackets w (ofBytes bs) := by
  cases bs with
  | nil => simp [ofBytes, alignedPackets]
  | cons b t =>
    constructor
    · intro p hp
      simp only [ofBytes, List.isEmpty_cons] at hp
      simp only [Bool.false_eq_true, if_false, List.mem_singleton] at hp
      simp [hp]
    · intro p hp
      simp [ofBytes] at hp

theorem alignedPackets_eq_nil {w : Nat} {P : List (List Nat)}
    (ha : alignedPackets w P) (h : P.flatten = []) : P = [] := by
  cases P with
  | nil => rfl
  | cons p ps =>
    have hp : p ≠ [] := ha.1 p (List.mem_cons_self _ _)
    rw [List.flatten_cons] at h
    exact absurd (List.append_eq_nil.mp h).1 hp

/-- A `w`-byte read against an aligned source returns exactly the first `w`
bytes of the remaining stream (fewer only when the stream is shorter), and
leaves an aligned source holding the rest. -/
theorem rdRead_aligned (w : Nat) (P : List (List Nat)) (ha : alignedPackets w P) :
    (rdRead P w).1 = P.flatten.take w ∧
      alignedPackets w (rdRead P w).2 ∧
      (rdRead P w).2.flatten = P.flatten.drop w := by
  cases P with
  | nil => exact ⟨by simp [rdRead], alignedPackets_nil w, by simp [rdRead]⟩
  | cons p ps =>
    have hp : p ≠ [] := ha.1 p (List.mem_cons_self _ _)
    cases p with
    | nil => exact absurd rfl hp
    | cons b t =>
      cases ps with
      | nil =>
        simp only [rdRead, List.flatten_cons, List.flatten_nil, List.append_nil]
        refine ⟨?_, ?_, ?_⟩
        · trivial
        · split
          · exact alignedPackets_nil w
          · rename_i hne
            constructor
            · intro q hq
              simp only [List.mem_singleton] at hq
              subst hq
              simpa [List.isEmpty_iff] using hne
            · intro q hq
              simp at hq
        · split
          · rename_i hne
            rw [List.isEmpty_iff] at hne
            simp [hne]
          · simp
      | cons q qs =>
        have hdvd : w ∣ (b :: t).length := by
          apply ha.2
          rw [List.dropLast_cons₂]
          exact List.mem_cons_self _ _
        have hlen : w ≤ (b :: t).length := Nat.le_of_dvd (by simp) hdvd
        simp only [rdRead, List.flatten_cons]
        refine ⟨?_, ?_, ?_⟩
        · rw [List.take_append_of_le_length hlen]
        · split
          · constructor
            · intro x hx
              exact ha.1 x (List.mem_cons_of_mem _ hx)
            · intro x hx
              apply ha.2
              rw [List.dropLast_cons₂]
              exact List.mem_cons_of_mem _ hx
          · rename_i hne
            constructor
            · intro x hx
              rcases List.mem_cons.mp hx with hx | hx
              · subst hx
                simpa [List.isEmpty_iff] using hne
              · exact ha.1 x (List.mem_cons_of_mem _ hx)
            · intro x hx
              rw [List.dropLast_cons₂] at hx
              rcases List.mem_cons.mp hx with hx | hx
              · subst hx
                rw [List.length_drop]
                exact Nat.dvd_sub' hdvd (Nat.dvd_refl w)
              · apply ha.2
                rw [List.dropLast_cons₂]
                exact List.mem_cons_of_mem _ hx
        · rw [List.drop_append_of_le_length hlen]
          split
          · rename_i hne
            rw [List.isEmpty_iff] at hne
            rw [hne]
            simp
          · simp

/-- Branch equations for one step of the scan loop. -/
theorem nextBytesLoop_succ_break0 (c : AeChunker) (f extremePos i : Nat)
    (ev chunk : List Nat) (r : List (List Nat)) (curLen : Nat)
    (h0 : (rdRead r curLen).1.length = 0) :
    nextBytesLoop c extremePos i ev chunk r curLen (f+1) =
      (chunk, (rdRead r curLen).2, curLen) := by
  simp only [nextBytesLoop]
  rw [if_pos h0]

theorem nextBytesLoop_succ_max (c : AeChunker) (f extremePos i : Nat)
    (ev chunk : List Nat) (r : List (List Nat)) (curLen : Nat)
    (h0 : ¬ (rdRead r curLen).1.length = 0) (hmx : 0 < c.maxSize ∧ c.maxSize ≤ i) :
    nextBytesLoop c extremePos i ev chunk r curLen (f+1) =
      (chunk ++ (rdRead r curLen).1, (rdRead r curLen).2, (rdRead r curLen).1.length) := by
  simp only [nextBytesLoop]
  rw [if_neg h0, if_pos hmx]

theorem nextBytesLoop_succ_ext (c : AeChunker) (f extremePos i : Nat)
    (ev chunk : List Nat) (r : List (List Nat)) (curLen : Nat)
    (h0 : ¬ (rdRead r curLen).1.length = 0) (hmx : ¬ (0 < c.maxSize ∧ c.maxSize ≤ i))
    (hext : isExtremeAe c.mode (rdRead r curLen).1 ev = true) :
    nextBytesLoop c extremePos i ev chunk r curLen (f+1) =
      nextBytesLoop c i (i + c.width)
        ((rdRead r curLen).1 ++ ev.drop (rdRead r curLen).1.length)
        (chunk ++ (rdRead r curLen).1) (rdRead r curLen).2
        (rdRead r curLen).1.length f := by
  simp only [nextBytesLoop]
  rw [if_neg h0, if_neg hmx, if_pos hext]

theorem nextBytesLoop_succ_win (c : AeChunker) (f extremePos i : Nat)
    (ev chunk : List Nat) (r : List (List Nat)) (curLen : Nat)
    (h0 : ¬ (rdRead r curLen).1.length = 0) (hmx : ¬ (0 < c.maxSize ∧ c.maxSize ≤ i))
    (hext : ¬ isExtremeAe c.mode (rdRead r curLen).1 ev = true)
    (hwin : extremePos + c.windowSize ≤ i) :
    nextBytesLoop c extremePos i ev chunk r curLen (f+1) =
      (chunk ++ (rdRead r curLen).1, (rdRead r curLen).2, (rdRead r curLen).1.length) := by
  simp only [nextBytesLoop]
  rw [if_neg h0, if_neg hmx, if_neg hext, if_pos hwin]

theorem nextBytesLoop_succ_else (c : AeChunker) (f extremePos i : Nat)
    (ev chunk : List Nat) (r : List (List Nat)) (curLen : Nat)
    (h0 : ¬ (rdRead r curLen).1.length = 0) (hmx : ¬ (0 < c.maxSize ∧ c.maxSize ≤ i))
    (hext : ¬ isExtremeAe c.mode (rdRead r curLen).1 ev = true)
    (hwin : ¬ extremePos + c.windowSize ≤ i) :
    nextBytesLoop c extremePos i ev chunk r curLen (f+1) =
      nextBytesLoop c extremePos (i + c.width) ev (chunk ++ (rdRead r curLen).1)
        (rdRead r curLen).2 (rdRead r curLen).1.length f := by
  simp only [nextBytesLoop]
  rw [if_neg h0, if_neg hmx, if_neg hext, if_neg hwin]

/-- Lockstep execution of the scan loop over two aligned sources delivering
the same byte stream: the emitted chunk, the final buffer length and the
remaining byte streams coincide, the sources stay aligned, and the buffer
stays at full width unless the stream is exhausted. -/
theorem nextBytesLoop_lockstep (c : AeChunker) (hw : 1 ≤ c.width) :
    ∀ fuel extremePos i ev chunk P Q curLen,
      alignedPackets c.width P → alignedPackets c.width Q →
      P.flatten = Q.flatten → (curLen = c.width ∨ P.flatten = []) →
      (nextBytesLoop c extremePos i ev chunk P curLen fuel).1 =
        (nextBytesLoop c extremePos i ev chunk Q curLen fuel).1 ∧
      (nextBytesLoop c extremePos i ev chunk P curLen fuel).2.2 =
        (nextBytesLoop c extremePos i ev chunk Q curLen fuel).2.2 ∧
      alignedPackets c.width (nextBytesLoop c extremePos i ev chunk P curLen fuel).2.1 ∧
      alignedPackets c.width (nextBytesLoop c extremePos i ev chunk Q curLen fuel).2.1 ∧
      (nextBytesLoop c extremePos i ev chunk P curLen fuel).2.1.flatten =
        (nextBytesLoop c extremePos i ev chunk Q curLen fuel).2.1.flatten ∧
      ((nextBytesLoop c extremePos i ev chunk P curLen fuel).2.2 = c.width ∨
        (nextBytesLoop c extremePos i ev chunk P curLen fuel).2.1.flatten = []) := by
  intro fuel
  induction fuel with
  | zero =>
    intro extremePos i ev chunk P Q curLen haP haQ hflat hcl
    exact ⟨rfl, rfl, haP, haQ, hflat, hcl⟩
  | succ f ih =>
    intro extremePos i ev chunk P Q curLen haP haQ hflat hcl
    rcases hcl with hcl | hPnil
    · subst hcl
      obtain ⟨hbP, haP', hfP⟩ := rdRead_aligned c.width P haP
      obtain ⟨hbQ, haQ', hfQ⟩ := rdRead_aligned c.width Q haQ
      have hb : (rdRead Q c.width).1 = (rdRead P c.width).1 := by
        rw [hbP, hbQ, hflat]
      have hff : (rdRead P c.width).2.flatten = (rdRead Q c.width).2.flatten := by
        rw [hfP, hfQ, hflat]
      have hnw : (rdRead P c.width).1.length = c.width ∨
          (rdRead P c.width).2.flatten = [] := by
        rw [hbP, List.length_take, hfP]
        by_cases hlb : c.width ≤ P.flatten.length
        · left; omega
        · right; exact List.drop_eq_nil_of_le (by omega)
      by_cases h0 : (rdRead P c.width).1.length = 0
      · rw [nextBytesLoop_succ_break0 c f extremePos i ev chunk P c.width h0,
          nextBytesLoop_succ_break0 c f extremePos i ev chunk Q c.width (by rw [hb]; exact h0)]
        exact ⟨rfl, rfl, haP', haQ', hff, Or.inl rfl⟩
      · by_cases hmx : 0 < c.maxSize ∧ c.maxSize ≤ i
        · rw [nextBytesLoop_succ_max c f extremePos i ev chunk P c.width h0 hmx,
            nextBytesLoop_succ_max c f extremePos i ev chunk Q c.width
              (by rw [hb]; exact h0) hmx, hb]
          exact ⟨rfl, rfl, haP', haQ', hff, hnw⟩
        · by_cases hext : isExtremeAe c.mode (rdRead P c.width).1 ev = true
          · rw [nextBytesLoop_succ_ext c f extremePos i ev chunk P c.width h0 hmx hext,
              nextBytesLoop_succ_ext c f extremePos i ev chunk Q c.width
                (by rw [hb]; exact h0) hmx (by rw [hb]; exact hext), hb]
            exact ih _ _ _ _ _ _ _ haP' haQ' hff hnw
          · by_cases hwin : extremePos + c.windowSize ≤ i
            · rw [nextBytesLoop_succ_win c f extremePos i ev chunk P c.width h0 hmx hext hwin,
                nextBytesLoop_succ_win c f extremePos i ev chunk Q c.width
                  (by rw [hb]; exact h0) hmx (by rw [hb]; exact hext) hwin, hb]
              exact ⟨rfl, rfl, haP', haQ', hff, hnw⟩
            · rw [nextBytesLoop_succ_else c f extremePos i ev chunk P c.width h0 hmx hext hwin,
                nextBytesLoop_succ_else c f extremePos i ev chunk Q c.width
                  (by rw [hb]; exact h0) hmx (by rw [hb]; exact hext) hwin, hb]
              exact ih _ _ _ _ _ _ _ haP' haQ' hff hnw
    · have hQnil : Q.flatten = [] := by rw [← hflat]; exact hPnil
      rw [alignedPackets_eq_nil haP hPnil, alignedPackets_eq_nil haQ hQnil]
      have h0 : (rdRead ([] : List (List Nat)) curLen).1.length = 0 := rfl
      rw [nextBytesLoop_succ_break0 c f extremePos i ev chunk [] curLen h0]
      exact ⟨rfl, rfl, alignedPackets_nil _, alignedPackets_nil _, rfl, Or.inr rfl⟩

/-- Lockstep execution of `NextBytes` over two aligned sources delivering
the same byte stream. -/
theorem nextBytes_lockstep (c : AeChunker) (hw : 1 ≤ c.width)
    (P Q : List (List Nat)) (curLen : Nat)
    (haP : alignedPackets c.width P) (haQ : alignedPackets c.width Q)
    (hflat : P.flatten = Q.flatten) (hcl : curLen = c.width ∨ P.flatten = []) :
    (nextBytes c P curLen).1 = (nextBytes c Q curLen).1 ∧
      (nextBytes c P curLen).2.2 = (nextBytes c Q curLen).2.2 ∧
      alignedPackets c.width (nextBytes c P curLen).2.1 ∧
      alignedPackets c.width (nextBytes c Q curLen).2.1 ∧
      (nextBytes c P curLen).2.1.flatten = (nextBytes c Q curLen).2.1.flatten ∧
      ((nextBytes c P curLen).2.2 = c.width ∨
        (nextBytes c P curLen).2.1.flatten = []) := by
  obtain ⟨hbP, haP', hfP⟩ := rdRead_aligned c.width P haP
  obtain ⟨hbQ, haQ', hfQ⟩ := rdRead_aligned c.width Q haQ
  have hb : (rdRead Q c.width).1 = (rdRead P c.width).1 := by
    rw [hbP, hbQ, hflat]
  have hff : (rdRead P c.width).2.flatten = (rdRead Q c.width).2.flatten := by
    rw [hfP, hfQ, hflat]
  have hfuel : rdTotal (rdRead Q c.width).2 = rdTotal (rdRead P c.width).2 := by
    unfold rdTotal
    rw [hff]
  by_cases h0 : (rdRead P c.width).1.length = 0
  · have eP : nextBytes c P curLen = (none, (rdRead P c.width).2, curLen) := by
      simp only [nextBytes]
      rw [if_pos h0]
    have eQ : nextBytes c Q curLen = (none, (rdRead Q c.width).2, curLen) := by
      simp only [nextBytes]
      rw [if_pos (by rw [hb]; exact h0)]
    rw [eP, eQ]
    refine ⟨rfl, rfl, haP', haQ', hff, ?_⟩
    rcases hcl with hcl | hPnil
    · exact Or.inl hcl
    · right
      rw [hfP, hPnil]
      simp
  · have hcl' : curLen = c.width := by
      rcases hcl with hcl | hPnil
      · exact hcl
      · exfalso
        rw [hbP, hPnil] at h0
        simp at h0
    subst hcl'
    by_cases h1 : (rdRead P c.width).1.length < c.width
    · have eP : nextBytes c P c.width =
          (some (rdRead P c.width).1, (rdRead P c.width).2, c.width) := by
        simp only [nextBytes]
        rw [if_neg h0, if_pos h1]
      have eQ : nextBytes c Q c.width =
          (some (rdRead P c.width).1, (rdRead Q c.width).2, c.width) := by
        simp only [nextBytes]
        rw [if_neg (by rw [hb]; exact h0), if_pos (by rw [hb]; exact h1), hb]
      rw [eP, eQ]
      exact ⟨rfl, rfl, haP', haQ', hff, Or.inl rfl⟩
    · have eP : nextBytes c P c.width =
          (some (nextBytesLoop c c.width (c.width + c.width) (rdRead P c.width).1
              (rdRead P c.width).1 (rdRead P c.width).2 c.width
              (rdTotal (rdRead P c.width).2 + 1)).1,
            (nextBytesLoop c c.width (c.width + c.width) (rdRead P c.width).1
              (rdRead P c.width).1 (rdRead P c.width).2 c.width
              (rdTotal (rdRead P c.width).2 + 1)).2.1,
            (nextBytesLoop c c.width (c.width + c.width) (rdRead P c.width).1
              (rdRead P c.width).1 (rdRead P c.width).2 c.width
              (rdTotal (rdRead P c.width).2 + 1)).2.2) := by
        simp only [nextBytes]
        rw [if_neg h0, if_neg h1]
      have eQ : nextBytes c Q c.width =
          (some (nextBytesLoop c c.width (c.width + c.width) (rdRead P c.width).1
              (rdRead P c.width).1 (rdRead Q c.width).2 c.width
              (rdTotal (rdRead P c.width).2 + 1)).1,
            (nextBytesLoop c c.width (c.width + c.width) (rdRead P c.width).1
              (rdRead P c.width).1 (rdRead Q c.width).2 c.width
              (rdTotal (rdRead P c.width).2 + 1)).2.1,
            (nextBytesLoop c c.width (c.width + c.width) (rdRead P c.width).1
              (rdRead P c.width).1 (rdRead Q c.width).2 c.width
              (rdTotal (rdRead P c.width).2 + 1)).2.2) := by
        simp only [nextBytes]
        rw [if_neg (by rw [hb]; exact h0), if_neg (by rw [hb]; exact h1), hb, hfuel]
      have hlock := nextBytesLoop_lockstep c hw (rdTotal (rdRead P c.width).2 + 1)
        c.width (c.width + c.width) (rdRead P c.width).1 (rdRead P c.width).1
        (rdRead P c.width).2 (rdRead Q c.width).2 c.width haP' haQ' hff (Or.inl rfl)
      rw [eP, eQ]
      exact ⟨congrArg some hlock.1, hlock.2.1, hlock.2.2.1, hlock.2.2.2.1,
        hlock.2.2.2.2.1, hlock.2.2.2.2.2⟩

/-- Two aligned sources delivering the same byte stream yield the same
chunk sequence from the caller loop. -/
theorem streamLoop_lockstep (c : AeChunker) (hw : 1 ≤ c.width) :
    ∀ fuel P Q curLen, alignedPackets c.width P → alignedPackets c.width Q →
      P.flatten = Q.flatten → (curLen = c.width ∨ P.flatten = []) →
      streamLoop c P curLen fuel = streamLoop c Q curLen fuel := by
  intro fuel
  induction fuel with
  | zero => intro P Q curLen _ _ _ _; rfl
  | succ f ih =>
    intro P Q curLen haP haQ hflat hcl
    have hlock := nextBytes_lockstep c hw P Q curLen haP haQ hflat hcl
    rcases hP : nextBytes c P curLen with ⟨oP, rP, clP⟩
    rcases hQ : nextBytes c Q curLen with ⟨oQ, rQ, clQ⟩
    rw [hP, hQ] at hlock
    simp only at hlock
    obtain ⟨ho, hcl2, harP, harQ, hfr, hlast⟩ := hlock
    cases oP with
    | none =>
      rw [← ho] at hQ
      simp only [streamLoop, hP, hQ]
    | some x =>
      rw [← ho] at hQ
      simp only [streamLoop, hP, hQ]
      rw [← hcl2]
      rw [ih rP rQ clP harP harQ hfr hlast]

/- ### Constructor field equations and validation case analysis -/

theorem newChunkerAe_some (o : Opts) :
    newChunkerAe (some o) =
      ⟨o.Mode, o.AverageSize, windowSizeOf o.AverageSize,
        o.AverageSize - windowSizeOf o.AverageSize, o.MaxSize,
        widthOf (windowSizeOf o.AverageSize)⟩ := rfl

theorem newChunker000_some_max_pos (o : Opts) :
    0 < (newChunker000 (some o)).maxSize := by
  simp only [newChunker000]
  split
  · assumption
  · split <;> omega

theorem newChunker000_some_ws_pos (o : Opts) :
    1 ≤ (newChunker000 (some o)).windowSize := by
  simp only [newChunker000]
  apply windowSizeOf_pos
  split <;> omega

theorem split_ok_cases (c : BufChunker) (L : List (List Nat)) (h : split c = .ok L) :
    (c.Data.length = 0 ∧ L = []) ∨
    (0 < c.Data.length ∧ c.Data.length < 3 ∧ L = [c.Data]) ∨
    (3 ≤ c.Data.length ∧ 3 ≤ c.AverageSize ∧
      ¬ (0 < c.MaxSize ∧ c.MaxSize < c.AverageSize) ∧
      L = splitLoop c 0 c.Data.length) := by
  unfold split at h
  split_ifs at h with h1 h2 h3 h4
  · simp only [Except.ok.injEq] at h
    exact Or.inl ⟨h1, h.symm⟩
  · simp only [Except.ok.injEq] at h
    exact Or.inr (Or.inl ⟨by omega, h2, h.symm⟩)
  · simp only [Except.ok.injEq] at h
    exact Or.inr (Or.inr ⟨by omega, by omega, h4, h.symm⟩)

/- ### The claims -/

/-- C1 counterexample: the claim fails as stated.  The `NextChunk` revision
constructed with a nil options carrier keeps `maxSize = 0`; a session over
the nonempty input `[1, 2, 3]` reads nothing, emits no chunks, and its
concatenation is not the input. -/
theorem C1_cex :
    (segChunks (newChunker000 none) [[1, 2, 3]]).flatten ≠ [1, 2, 3] := by
  decide

/-- C1 amended: lossless partition holds for every successful buffer-mode
`Split`, for every streaming `NextBytes` session (any options, any
packetization of the source), and for every `NextChunk` session built from a
non-nil options carrier; only the `NextChunk` revision's nil-options path
(where `maxSize` stays 0) fails to consume its input. -/
theorem C1_amended :
    (∀ (c : BufChunker) (L : List (List Nat)), split c = .ok L → L.flatten = c.Data) ∧
    (∀ (o : Option Opts) (r : List (List Nat)),
      (streamChunks (newChunkerAe o) r).flatten = r.flatten) ∧
    (∀ (o : Opts) (r : List (List Nat)),
      (segChunks (newChunker000 (some o)) r).flatten = r.flatten) := by
  refine ⟨?_, ?_, ?_⟩
  · intro c L h
    rcases split_ok_cases c L h with ⟨h1, h2⟩ | ⟨h1, h2, h3⟩ | ⟨h1, h2, h3, h4⟩
    · subst h2
      simp only [List.flatten_nil]
      exact (List.eq_nil_of_length_eq_zero h1).symm
    · subst h3
      simp
    · subst h4
      simpa using splitLoop_flatten c c.Data.length 0 (by omega)
  · intro o r
    exact streamChunks_flatten (newChunkerAe o) (newChunkerAe_width_pos o) r
  · intro o r
    unfold segChunks
    simpa using segLoop_flatten (newChunker000 (some o)) (newChunker000_some_max_pos o)
      (newChunker000_some_ws_pos o) (rdTotal r + 1) r [] (by simp)

/-- C1 amended, witness: concrete instances of the three session kinds. -/
theorem C1_amended_witness :
    (([[1, 2]] : List (List Nat)).flatten = [1, 2]) ∧
    ((streamChunks (newChunkerAe none) [[9]]).flatten = ([[9]] : List (List Nat)).flatten) ∧
    ((segChunks (newChunker000 (some ⟨10, .MAX, 0⟩)) [[1], [2]]).flatten =
      ([[1], [2]] : List (List Nat)).flatten) :=
  ⟨C1_amended.1 ⟨[1, 2], 5, .MAX, 0⟩ [[1, 2]] (by rfl),
   C1_amended.2.1 none [[9]],
   C1_amended.2.2 ⟨10, .MAX, 0⟩ [[1], [2]]⟩

set_option maxRecDepth 200000 in
/-- C2 counterexample: the claim fails as stated.  With `AverageSize = 880`
(stride `width = 2`) and `MaxSize = 881`, `Split` over 884 slowly rising
bytes emits a first chunk of 882 bytes, exceeding the ceiling: the scan only
checks the ceiling at sampled offsets (multiples of the stride). -/
theorem C2_cex :
    (match split ⟨(List.range 884).map (· / 7), 880, .MAX, 881⟩ with
      | .ok L => L.map List.length
      | .error _ => []) = [882, 2] ∧
    ¬ (882 ≤ (⟨(List.range 884).map (· / 7), 880, .MAX, 881⟩ : BufChunker).MaxSize) := by
  constructor
  · decide
  · decide

/-- C2 amended: with a validated ceiling (`3 ≤ AverageSize ≤ MaxSize`),
every chunk emitted by `Split` or by a streaming session is shorter than
`MaxSize + width`; the scanner cuts unconditionally at the first sampled
offset that has reached `MaxSize`, which may overshoot the ceiling by up to
`width - 1` bytes. -/
theorem C2_amended :
    (∀ (c : BufChunker) (L : List (List Nat)), 3 ≤ c.AverageSize →
      c.AverageSize ≤ c.MaxSize → split c = .ok L →
      ∀ ch ∈ L, ch.length < c.MaxSize + c.getWidth) ∧
    (∀ (o : Opts) (r : List (List Nat)), 3 ≤ o.AverageSize →
      o.AverageSize ≤ o.MaxSize →
      ∀ ch ∈ streamChunks (newChunkerAe (some o)) r,
        ch.length < (newChunkerAe (some o)).maxSize + (newChunkerAe (some o)).width) := by
  constructor
  · intro c L h3 hm h ch hch
    have hw : 1 ≤ c.getWidth := widthOf_pos c.getWindowSize
    rcases split_ok_cases c L h with ⟨h1, h2⟩ | ⟨h1, h2, h3'⟩ | ⟨h1, h2, h3', h4⟩
    · subst h2
      simp at hch
    · subst h3'
      simp only [List.mem_singleton] at hch
      subst hch
      omega
    · subst h4
      exact splitLoop_chunk_lt c h3 hm c.Data.length 0 ch hch
  · intro o r h3 hm ch hch
    rw [newChunkerAe_some] at hch ⊢
    have hwlt : widthOf (windowSizeOf o.AverageSize) < o.AverageSize :=
      widthOf_lt_avg (by omega)
    exact streamLoop_chunk_lt _ (by simp only []; omega) (by simp only []; omega)
      _ r _ (Nat.le_refl _) ch hch

/-- C2 amended, witness. -/
theorem C2_amended_witness :
    (∀ ch ∈ [[(9 : Nat), 9]], ch.length <
        (⟨[9, 9], 3, .MAX, 5⟩ : BufChunker).MaxSize +
          (⟨[9, 9], 3, .MAX, 5⟩ : BufChunker).getWidth) ∧
    (∀ ch ∈ streamChunks (newChunkerAe (some ⟨10, .MAX, 12⟩)) [[1, 2, 3]],
      ch.length < (newChunkerAe (some ⟨10, .MAX, 12⟩)).maxSize +
        (newChunkerAe (some ⟨10, .MAX, 12⟩)).width) :=
  ⟨C2_amended.1 ⟨[9, 9], 3, .MAX, 5⟩ [[9, 9]] (by decide) (by decide) (by rfl),
   C2_amended.2 ⟨10, .MAX, 12⟩ [[1, 2, 3]] (by decide) (by decide)⟩

/-- C3 counterexample: the claim fails as stated.  With `AverageSize = 880`
the stride is 2; a source delivering `[10, 20, 30, 40]` in one read yields a
single 4-byte chunk, while the same bytes delivered in 1-byte reads yield
four 1-byte chunks (every short first read is returned as a chunk
immediately), so the boundaries depend on the read granularity. -/
theorem C3_cex :
    ([[10, 20, 30, 40]] : List (List Nat)).flatten =
      ([[10], [20], [30], [40]] : List (List Nat)).flatten ∧
    streamChunks (newChunkerAe (some ⟨880, .MAX, 0⟩)) [[10, 20, 30, 40]] ≠
      streamChunks (newChunkerAe (some ⟨880, .MAX, 0⟩)) [[10], [20], [30], [40]] := by
  constructor
  · decide
  · decide

/-- C3 amended: the chunk sequence is independent of the read granularity
provided every read request is satisfied in full while bytes remain — i.e.
for sources whose packets (except possibly the last) have lengths divisible
by the stride `width`; any such source produces the same chunks as a
single-read source over the same bytes.  (With `width = 1` this covers all
packetizations.) -/
theorem C3_amended (o : Option Opts) (P : List (List Nat))
    (ha : alignedPackets (newChunkerAe o).width P) :
    streamChunks (newChunkerAe o) P =
      streamChunks (newChunkerAe o) (ofBytes P.flatten) := by
  unfold streamChunks
  have ht : rdTotal (ofBytes P.flatten) = rdTotal P := by
    unfold rdTotal
    rw [ofBytes_flatten]
  rw [ht]
  exact streamLoop_lockstep (newChunkerAe o) (newChunkerAe_width_pos o)
    (rdTotal P + 1) P (ofBytes P.flatten) (newChunkerAe o).width ha
    (alignedPackets_ofBytes _ _) (ofBytes_flatten P.flatten).symm (Or.inl rfl)

/-- C3 amended, witness: a 2-aligned packetization against the single-read
source. -/
theorem C3_amended_witness :
    alignedPackets (newChunkerAe (some ⟨880, .MAX, 0⟩)).width [[1, 2], [3, 4], [5]] ∧
    streamChunks (newChunkerAe (some ⟨880, .MAX, 0⟩)) [[1, 2], [3, 4], [5]] =
      streamChunks (newChunkerAe (some ⟨880, .MAX, 0⟩))
        (ofBytes ([[1, 2], [3, 4], [5]] : List (List Nat)).flatten) :=
  ⟨⟨by decide, by decide⟩,
   C3_amended (some ⟨880, .MAX, 0⟩) [[1, 2], [3, 4], [5]] ⟨by decide, by decide⟩⟩

/-- C4: for every valid configuration (`AverageSize ≥ 3`, ceiling unset or
at least `AverageSize`), every chunk except the final one has length at
least `windowSize + width` (the value the `MinSize` accessor returns), in
both the buffer-mode `Split` and a streaming session over a `bytes.Reader`
source. -/
theorem C4_min_size :
    (∀ (c : BufChunker) (L : List (List Nat)), 3 ≤ c.AverageSize →
      (c.MaxSize = 0 ∨ c.AverageSize ≤ c.MaxSize) → split c = .ok L →
      ∀ ch ∈ L.dropLast, c.MinSize ≤ ch.length) ∧
    (∀ (o : Opts) (bs : List Nat), 3 ≤ o.AverageSize →
      (o.MaxSize = 0 ∨ o.AverageSize ≤ o.MaxSize) →
      ∀ ch ∈ (streamChunks (newChunkerAe (some o)) (ofBytes bs)).dropLast,
        (newChunkerAe (some o)).windowSize + (newChunkerAe (some o)).width ≤
          ch.length) := by
  constructor
  · intro c L h3 hm h ch hch
    rcases split_ok_cases c L h with ⟨h1, h2⟩ | ⟨h1, h2, h3'⟩ | ⟨h1, h2, h3', h4⟩
    · subst h2
      simp at hch
    · subst h3'
      simp at hch
    · subst h4
      exact splitLoop_dropLast_min c h3 hm c.Data.length 0 (by omega) ch hch
  · intro o bs h3 hm ch hch
    rw [newChunkerAe_some] at hch ⊢
    have hminb : windowSizeOf o.AverageSize + widthOf (windowSizeOf o.AverageSize) ≤
        o.AverageSize := minSize_le_avg (by omega)
    have hmax : (newChunkerAe (some o)).maxSize = 0 ∨
        (newChunkerAe (some o)).windowSize + (newChunkerAe (some o)).width ≤
          (newChunkerAe (some o)).maxSize := by
      rw [newChunkerAe_some]
      rcases hm with h | h
      · left; exact h
      · right; simp only []; omega
    rw [newChunkerAe_some] at hmax
    exact streamLoop_dropLast_min _ (widthOf_pos _) hmax _ bs ch hch

/-- C4 witness: a descending 20-byte input with `AverageSize = 10` (where
`MinSize` is 7) splits into streaming chunks of 7, 7 and 6 bytes, and a
40-byte buffer splits into chunks of 18, 13 and 9 bytes. -/
theorem C4_min_size_witness :
    (∀ ch ∈ ((match split ⟨(List.range 40).map (· % 13), 10, .MAX, 0⟩ with
        | .ok L => L
        | .error _ => []) : List (List Nat)).dropLast,
      (⟨(List.range 40).map (· % 13), 10, .MAX, 0⟩ : BufChunker).MinSize ≤ ch.length) ∧
    (∀ ch ∈ (streamChunks (newChunkerAe (some ⟨10, .MAX, 0⟩))
        (ofBytes ((List.range 20).map (fun j => 30 - j)))).dropLast,
      (newChunkerAe (some ⟨10, .MAX, 0⟩)).windowSize +
        (newChunkerAe (some ⟨10, .MAX, 0⟩)).width ≤ ch.length) := by
  constructor
  · intro ch hch
    exact C4_min_size.1 ⟨(List.range 40).map (· % 13), 10, .MAX, 0⟩ _
      (by decide) (Or.inl (by decide)) rfl ch hch
  · exact C4_min_size.2 ⟨10, .MAX, 0⟩ ((List.range 20).map (fun j => 30 - j))
      (by decide) (Or.inl (by decide))

/-- C5 counterexample: the claim fails as stated.  A 1-byte input with
`AverageSize = 0` (< 3) does not fail: `Split` short-circuits inputs
shorter than 3 bytes before any validation and emits the whole input as a
chunk. -/
theorem C5_cex : split ⟨[7], 0, .MAX, 0⟩ = Except.ok [[7]] := by rfl

/-- C5 amended: `Split` raises the InvalidConfig errors exactly when the
input is at least 3 bytes long (shorter inputs return trivially before
validation); configurations with `AverageSize ≥ 3` and the ceiling unset or
at least `AverageSize` never fail; and the streaming variant performs no
validation at all — with `AverageSize = 0` it still chunks its input. -/
theorem C5_amended :
    (∀ c : BufChunker, 3 ≤ c.Data.length →
      (c.AverageSize < 3 ∨ (0 < c.MaxSize ∧ c.MaxSize < c.AverageSize)) →
      ∃ e, split c = .error e) ∧
    (∀ c : BufChunker, 3 ≤ c.AverageSize →
      (c.MaxSize = 0 ∨ c.AverageSize ≤ c.MaxSize) →
      ∃ L, split c = .ok L) ∧
    (streamChunks (newChunkerAe (some ⟨0, .MAX, 0⟩)) (ofBytes [1, 2, 3])).flatten =
      [1, 2, 3] := by
  refine ⟨?_, ?_, by decide⟩
  · intro c hlen hbad
    unfold split
    split_ifs with h1 h2 h3 h4
    · omega
    · omega
    · exact ⟨_, rfl⟩
    · exact ⟨_, rfl⟩
    · rcases hbad with hbad | hbad
      · exact absurd hbad h3
      · exact absurd hbad h4
  · intro c h3 hm
    unfold split
    split_ifs with h1 h2 h3' h4'
    · exact ⟨_, rfl⟩
    · exact ⟨_, rfl⟩
    · omega
    · rcases hm with hm | hm <;> omega
    · exact ⟨_, rfl⟩

/-- C5 amended, witness. -/
theorem C5_amended_witness :
    (∃ e, split ⟨[1, 2, 3], 0, .MAX, 0⟩ = .error e) ∧
    (∃ L, split ⟨[1, 2, 3, 4], 3, .MAX, 0⟩ = .ok L) :=
  ⟨C5_amended.1 ⟨[1, 2, 3], 0, .MAX, 0⟩ (by decide) (Or.inl (by decide)),
   C5_amended.2.1 ⟨[1, 2, 3, 4], 3, .MAX, 0⟩ (by decide) (Or.inl (by decide))⟩

/-- C6: forward progress and termination.  The stride is always at least 1
(even when the window is minuscule relative to 256); the next cut point of a
nonempty window consumes between 1 byte and the whole window; and both the
scan loop and the Split loop are fuel-stable — once the fuel covers the
remaining length the result no longer depends on it, so the unbounded Go
loops terminate with these values. -/
theorem C6_termination :
    (∀ ws : Nat, 1 ≤ widthOf ws) ∧
    (∀ (c : BufChunker) (input : List Nat), input ≠ [] →
      1 ≤ nextCutPoint c input ∧ nextCutPoint c input ≤ input.length) ∧
    (∀ (c : BufChunker) (input : List Nat) (maxPos i f₁ f₂ : Nat),
      input.length ≤ i + f₁ → input.length ≤ i + f₂ →
      nextCutLoop c input maxPos i f₁ = nextCutLoop c input maxPos i f₂) ∧
    (∀ (c : BufChunker) (cut f₁ f₂ : Nat),
      c.Data.length ≤ cut + f₁ → c.Data.length ≤ cut + f₂ →
      splitLoop c cut f₁ = splitLoop c cut f₂) := by
  refine ⟨widthOf_pos, ?_, ?_, ?_⟩
  · intro c input h
    exact ⟨nextCutPoint_pos c input h, nextCutPoint_le c input⟩
  · intro c input maxPos i f₁ f₂ hf₁ hf₂
    rcases Nat.le_total f₁ f₂ with hle | hle
    · exact nextCutLoop_stable c input f₁ f₂ i maxPos hf₁ hle
    · exact (nextCutLoop_stable c input f₂ f₁ i maxPos hf₂ hle).symm
  · intro c cut f₁ f₂ hf₁ hf₂
    rcases Nat.le_total f₁ f₂ with hle | hle
    · exact splitLoop_stable c f₁ f₂ cut hf₁ hle
    · exact (splitLoop_stable c f₂ f₁ cut hf₂ hle).symm

/-- C6 witness. -/
theorem C6_termination_witness :
    (1 ≤ nextCutPoint ⟨[5, 6, 7], 3, .MAX, 0⟩ [5, 6, 7] ∧
      nextCutPoint ⟨[5, 6, 7], 3, .MAX, 0⟩ [5, 6, 7] ≤ ([5, 6, 7] : List Nat).length) ∧
    nextCutLoop ⟨[5, 6, 7], 3, .MAX, 0⟩ [5, 6, 7] 1 2 3 =
      nextCutLoop ⟨[5, 6, 7], 3, .MAX, 0⟩ [5, 6, 7] 1 2 7 ∧
    splitLoop ⟨[5, 6, 7], 3, .MAX, 0⟩ 0 3 = splitLoop ⟨[5, 6, 7], 3, .MAX, 0⟩ 0 9 :=
  ⟨C6_termination.2.1 ⟨[5, 6, 7], 3, .MAX, 0⟩ [5, 6, 7] (by decide),
   C6_termination.2.2.1 ⟨[5, 6, 7], 3, .MAX, 0⟩ [5, 6, 7] 1 2 3 7 (by decide) (by decide),
   C6_termination.2.2.2 ⟨[5, 6, 7], 3, .MAX, 0⟩ 0 3 9 (by decide) (by decide)⟩

/-- C7 counterexample: the claim fails as stated.  For `averageSize = 660`
the derived `windowSize` is 384; the code computes `width` by integer
division (`math.Round` is applied to the already-truncated integer quotient
`windowSize / 256` and is a no-op), giving 1, while the spec's
round-to-nearest formula gives 2. -/
theorem C7_cex :
    windowSizeOf 660 = 384 ∧ widthOf 384 = 1 ∧ widthSpecRound 384 = 2 ∧
      widthOf (windowSizeOf 660) ≠ widthSpecRound (windowSizeOf 660) := by
  refine ⟨by decide, by decide, by decide, by decide⟩

/-- C7 amended: the stride is `windowSize / 256` truncated (floored to 1
when the quotient is 0), not rounded to nearest; truncation and the spec's
rounding agree exactly when `windowSize < 256` or the remainder
`windowSize % 256` is below 128. -/
theorem C7_amended (ws : Nat) :
    widthOf ws = widthSpecRound ws ↔ (ws % 256 < 128 ∨ ws < 256) := by
  unfold widthOf widthSpecRound
  split_ifs <;> omega

set_option maxRecDepth 400000 in
/-- C8 counterexample: the claim fails as stated.  In the streaming variant
a non-nil carrier with `MaxSize = 0` yields `maxSize = 0` — no ceiling at
all rather than `2 × averageSize` (a 300-byte monotone input comes back as
one 300-byte chunk although `2 × 100 = 200`); a zero `AverageSize` is taken
verbatim instead of the default; and in the `NextChunk` revision a nil
carrier leaves `maxSize = 0` instead of `2 × averageSize`. -/
theorem C8_cex :
    (newChunkerAe (some ⟨100, .MAX, 0⟩)).maxSize = 0 ∧
    (streamChunks (newChunkerAe (some ⟨100, .MAX, 0⟩))
        (ofBytes ((List.range 300).map (fun j => min j 255)))).map List.length =
      [300] ∧
    ¬ (300 ≤ 2 * 100) ∧
    (newChunkerAe (some ⟨0, .MAX, 5⟩)).avgSize ≠ 256 * 1024 * 1024 ∧
    (newChunker000 none).maxSize ≠ 2 * (newChunker000 none).avgSize := by
  refine ⟨by decide, by decide, by decide, by decide, by decide⟩

/-- C8 amended: in the streaming variant the defaults
(`mode = MAX`, `averageSize = 256 MiB`, `maxSize = 2 × averageSize`) apply
only to a nil options carrier; a non-nil carrier's three fields are taken
verbatim, zero values included (zero `maxSize` disables the ceiling).  In
the `NextChunk` revision a non-nil carrier's zero-valued fields do default
(`averageSize → 256 MiB`, `maxSize → 2 × averageSize`) but a nil carrier
leaves `maxSize = 0`. -/
theorem C8_amended :
    ((newChunkerAe none).mode = .MAX ∧
      (newChunkerAe none).avgSize = 256 * 1024 * 1024 ∧
      (newChunkerAe none).maxSize = 2 * (256 * 1024 * 1024)) ∧
    (∀ o : Opts, (newChunkerAe (some o)).mode = o.Mode ∧
      (newChunkerAe (some o)).avgSize = o.AverageSize ∧
      (newChunkerAe (some o)).maxSize = o.MaxSize) ∧
    (∀ o : Opts, (newChunker000 (some o)).mode = o.Mode ∧
      (newChunker000 (some o)).avgSize =
        (if 0 < o.AverageSize then o.AverageSize else 256 * 1024 * 1024) ∧
      (newChunker000 (some o)).maxSize =
        (if 0 < o.MaxSize then o.MaxSize
         else (if 0 < o.AverageSize then o.AverageSize else 256 * 1024 * 1024) * 2)) ∧
    (newChunker000 none).maxSize = 0 := by
  refine ⟨⟨rfl, rfl, by decide⟩, ?_, ?_, rfl⟩
  · intro o
    exact ⟨rfl, rfl, rfl⟩
  · intro o
    exact ⟨rfl, rfl, rfl⟩

/-- C9 counterexample: the claim fails as stated.  On the 24-byte input of
4 zero bytes followed by `0, 1, ..., 19`, with `averageSize = 10` and
`maxSize = 100`, the session emits exactly one chunk — the ceiling of 100
exceeds the input length, so no cut is forced and the chunk count is not
"multiple". -/
theorem C9_cex :
    streamChunks (newChunkerAe (some ⟨10, .MAX, 100⟩))
        (ofBytes (List.replicate 4 0 ++ List.range 20)) =
      [List.replicate 4 0 ++ List.range 20] := by
  decide

set_option maxRecDepth 400000 in
/-- C9 amended: the 24-byte padded rising input with `averageSize = 10`
yields exactly one chunk both without a ceiling and with `maxSize = 100`
(the ceiling is never reached).  The repository's actual test input is 260
bytes (five zero bytes then `1..255`); there `maxSize = 100` forces cuts at
the ceiling, giving three chunks of 100, 100 and 60 bytes, which sum to the
input length of 260. -/
theorem C9_amended :
    streamChunks (newChunkerAe (some ⟨10, .MAX, 0⟩))
        (ofBytes (List.replicate 4 0 ++ List.range 20)) =
      [List.replicate 4 0 ++ List.range 20] ∧
    streamChunks (newChunkerAe (some ⟨10, .MAX, 100⟩))
        (ofBytes (List.replicate 4 0 ++ List.range 20)) =
      [List.replicate 4 0 ++ List.range 20] ∧
    (streamChunks (newChunkerAe (some ⟨10, .MAX, 100⟩))
        (ofBytes ((List.range 260).map (fun j => if j < 5 then 0 else j - 4)))).map
        List.length = [100, 100, 60] ∧
    100 + 100 + 60 = ((List.range 260).map (fun j => if j < 5 then 0 else j - 4)).length := by
  refine ⟨by decide, by decide, by decide, by decide⟩

/-- C10: emitted chunks are never empty.  Every chunk of a successful
`Split`, of any streaming session (any options, any source), and of any
`NextChunk` session built from a non-nil carrier is nonempty; exhaustion is
signalled only by the end-of-input signal — in particular the `NextChunk`
revision's nil-carrier sessions emit no chunks at all rather than empty
ones. -/
theorem C10_nonempty :
    (∀ (c : BufChunker) (L : List (List Nat)), split c = .ok L →
      ∀ ch ∈ L, ch ≠ []) ∧
    (∀ (o : Option Opts) (r : List (List Nat)),
      ∀ ch ∈ streamChunks (newChunkerAe o) r, ch ≠ []) ∧
    (∀ (o : Opts) (r : List (List Nat)),
      ∀ ch ∈ segChunks (newChunker000 (some o)) r, ch ≠ []) ∧
    (∀ r : List (List Nat), segChunks (newChunker000 none) r = []) := by
  refine ⟨?_, ?_, ?_, segChunks_none_opts⟩
  · intro c L h ch hch
    rcases split_ok_cases c L h with ⟨h1, h2⟩ | ⟨h1, h2, h3⟩ | ⟨h1, h2, h3, h4⟩
    · subst h2
      simp at hch
    · subst h3
      simp only [List.mem_singleton] at hch
      subst hch
      intro hc
      rw [hc] at h1
      simp at h1
    · subst h4
      exact splitLoop_mem_ne_nil c c.Data.length 0 ch hch
  · intro o r ch hch
    exact streamLoop_mem_ne_nil (newChunkerAe o) (rdTotal r + 1) r
      (newChunkerAe o).width ch hch
  · intro o r ch hch
    exact segLoop_mem_ne_nil (newChunker000 (some o)) (newChunker000_some_max_pos o)
      (newChunker000_some_ws_pos o) (rdTotal r + 1) r [] ch hch

/-- C10 witness. -/
theorem C10_nonempty_witness :
    ([1, 2] : List Nat) ≠ [] ∧ ([1, 2, 3] : List Nat) ≠ [] ∧ ([4] : List Nat) ≠ [] :=
  ⟨C10_nonempty.1 ⟨[1, 2], 5, .MAX, 0⟩ [[1, 2]] (by rfl) [1, 2] (by decide),
   C10_nonempty.2.1 (some ⟨10, .MAX, 0⟩) [[1, 2, 3]] [1, 2, 3] (by decide),
   C10_nonempty.2.2.1 ⟨10, .MAX, 0⟩ [[4]] [4] (by decide)⟩
